import Mathlib

/-!
Verification of the NFUID identifier codec.

The development shallowly embeds the two implementations of the repository:

* `src/nfuid.js` — the JavaScript codec working on native `BigInt`s.  BigInt
  values are modelled as `Nat` (they are provably non-negative throughout),
  shift counts and field widths that the source keeps in JS numbers are
  modelled as `Int` where the source can make them negative, and the
  JS-specific semantics of `<<`/`>>`/`&` on negative BigInt operands is
  reproduced exactly (`shrI`, `andI` below).
* `php/src/NFUID.php` — the PHP port, whose arbitrary-precision substrate
  works on decimal digit strings.  A decimal string is modelled as the list
  of its digit values, most significant first.

Randomness and the clock are modelled as explicit inputs: `generate` takes
the clock reading and the raw random bytes as parameters.
-/

set_option maxHeartbeats 1600000

namespace NFUID

/-! ### Digit expansions shared by both implementations -/

/-- Digit expansion of `n` in base `radix`, most significant digit first:
the repeated divide-and-collect-remainders loop shared by the JS `#toBase`
and the PHP `toBase`.  The source loops `while (n > 0)`; the extra
`radix < 2` guard only makes the recursion well founded (with a radix below
2 the source loop never terminates, so it never produces a value). -/
def toBaseDigits (radix : Nat) (n : Nat) : List Nat :=
  if _h : n = 0 ∨ radix < 2 then [] else
    toBaseDigits radix (n / radix) ++ [n % radix]
termination_by n
decreasing_by exact Nat.div_lt_self (by omega) (by omega)

/-- Value of a most-significant-first digit list, the left-to-right
accumulation `acc = acc * radix + d` used by `#fromBase`/`fromBase`. -/
def ofDigitsBE (radix : Nat) (l : List Nat) : Nat :=
  l.foldl (fun acc d => acc * radix + d) 0

theorem foldl_digit_acc (radix : Nat) (l : List Nat) (acc : Nat) :
    l.foldl (fun a d => a * radix + d) acc =
      acc * radix ^ l.length + ofDigitsBE radix l := by
  induction l generalizing acc with
  | nil => simp [ofDigitsBE]
  | cons d t ih =>
    simp only [List.foldl_cons, ofDigitsBE, List.length_cons]
    rw [ih (acc * radix + d), ih (0 * radix + d)]
    ring

theorem ofDigitsBE_nil (radix : Nat) : ofDigitsBE radix [] = 0 := rfl

theorem ofDigitsBE_append_singleton (radix : Nat) (l : List Nat) (d : Nat) :
    ofDigitsBE radix (l ++ [d]) = ofDigitsBE radix l * radix + d := by
  simp only [ofDigitsBE, List.foldl_append, List.foldl_cons, List.foldl_nil]

theorem ofDigitsBE_cons (radix : Nat) (d : Nat) (l : List Nat) :
    ofDigitsBE radix (d :: l) = d * radix ^ l.length + ofDigitsBE radix l := by
  simp only [ofDigitsBE, List.foldl_cons]
  rw [foldl_digit_acc]
  simp [ofDigitsBE]

theorem toBaseDigits_val (radix : Nat) (hr : 2 ≤ radix) (n : Nat) :
    ofDigitsBE radix (toBaseDigits radix n) = n := by
  induction n using Nat.strong_induction_on with
  | _ n ih =>
    rw [toBaseDigits]
    by_cases h : n = 0 ∨ radix < 2
    · have hn : n = 0 := by omega
      simp [h, hn, ofDigitsBE]
    · simp only [h, dite_false]
      rw [ofDigitsBE_append_singleton,
        ih (n / radix) (Nat.div_lt_self (by omega) (by omega))]
      exact Nat.div_add_mod' n radix

theorem toBaseDigits_lt (radix : Nat) (n : Nat) :
    ∀ d ∈ toBaseDigits radix n, d < radix := by
  induction n using Nat.strong_induction_on with
  | _ n ih =>
    rw [toBaseDigits]
    by_cases h : n = 0 ∨ radix < 2
    · simp [h]
    · simp only [h, dite_false]
      intro d hd
      rcases List.mem_append.1 hd with hd1 | hd2
      · exact ih (n / radix) (Nat.div_lt_self (by omega) (by omega)) d hd1
      · simp only [List.mem_singleton] at hd2
        subst hd2
        exact Nat.mod_lt _ (by omega)

theorem toBaseDigits_ne_nil (radix : Nat) (hr : 2 ≤ radix) (n : Nat)
    (hn : n ≠ 0) : toBaseDigits radix n ≠ [] := by
  rw [toBaseDigits]
  have h : ¬ (n = 0 ∨ radix < 2) := by omega
  simp [h]

theorem toBaseDigits_length (radix : Nat) (hr : 2 ≤ radix) (n : Nat)
    (hn : n ≠ 0) :
    (toBaseDigits radix n).length = Nat.log radix n + 1 := by
  induction n using Nat.strong_induction_on with
  | _ n ih =>
    rw [toBaseDigits]
    have h : ¬ (n = 0 ∨ radix < 2) := by omega
    simp only [h, dite_false, List.length_append, List.length_singleton]
    by_cases hq : n / radix = 0
    · have hlt : n < radix := (Nat.div_eq_zero_iff (by omega)).1 hq
      rw [toBaseDigits]
      simp [hq, Nat.log_eq_zero_iff, hlt]
    · rw [ih (n / radix) (Nat.div_lt_self (by omega) (by omega)) hq]
      have hdiv := Nat.log_div_base radix n
      have hbn : radix ≤ n := by
        by_contra hc
        exact hq ((Nat.div_eq_zero_iff (by omega)).2 (by omega))
      have hlog : 0 < Nat.log radix n := Nat.log_pos (by omega) hbn
      omega

theorem toBaseDigits_head_ne_zero (radix : Nat) (hr : 2 ≤ radix) (n : Nat)
    (hn : n ≠ 0) : (toBaseDigits radix n).head? ≠ some 0 := by
  induction n using Nat.strong_induction_on with
  | _ n ih =>
    rw [toBaseDigits]
    have h : ¬ (n = 0 ∨ radix < 2) := by omega
    simp only [h, dite_false]
    by_cases hq : n / radix = 0
    · rw [toBaseDigits]
      have hlt : n < radix := (Nat.div_eq_zero_iff (by omega)).1 hq
      simp [hq, Nat.mod_eq_of_lt hlt, hn]
    · have hne := toBaseDigits_ne_nil radix hr (n / radix) hq
      have hh := ih (n / radix) (Nat.div_lt_self (by omega) (by omega)) hq
      rcases List.exists_cons_of_ne_nil hne with ⟨a, t, hat⟩
      rw [hat]
      rw [hat] at hh
      simpa using hh

/-! ### The JS codec (`src/nfuid.js`) -/

/-- Immutable configuration held by an `NFUID` instance: the private fields
`#BASE_ALPHABET`, `#timestampBits` and `#randomBits` (the radix and the
char-to-index map are derived from the alphabet). -/
structure Config where
  baseAlphabet : List Char
  timestampBits : Nat
  randomBits : Nat

/-- Index of a character in the alphabet.  The JS constructor builds
`#BASE_MAP[alphabet[i]] = i` for increasing `i`; since construction rejects
duplicate characters this is exactly the first-occurrence index. -/
def idxOf? (alphabet : List Char) (c : Char) : Option Nat :=
  match alphabet with
  | [] => none
  | a :: rest => if a = c then some 0 else (idxOf? rest c).map (· + 1)

/-- Left-to-right accumulation loop of `#fromBase`:
`result = result * radix + BASE_MAP[char]`, failing on a character absent
from the map. -/
def fromBaseAux (alphabet : List Char) (radix : Nat) (acc : Nat) :
    List Char → Except String Nat
  | [] => .ok acc
  | c :: rest =>
    match idxOf? alphabet c with
    | none => .error ("Invalid character in encoded string: " ++ c.toString)
    | some v => fromBaseAux alphabet radix (acc * radix + v) rest

/-- JS `#fromBase`: decode a base string to a number. -/
def fromBase (alphabet : List Char) (id : List Char) : Except String Nat :=
  fromBaseAux alphabet alphabet.length 0 id

/-- JS `#toBase`: zero maps to the first alphabet character repeated
`minLength || 1` times; otherwise collect remainders most significant first
and left-pad with the first alphabet character up to `minLength`. -/
def toBase (alphabet : List Char) (num minLength : Nat) : List Char :=
  if num = 0 then
    List.replicate (if minLength = 0 then 1 else minLength) (alphabet.headD ' ')
  else
    let unpadded := (toBaseDigits alphabet.length num).map
      (fun d => alphabet.getD d ' ')
    List.replicate (minLength - unpadded.length) (alphabet.headD ' ') ++ unpadded

/-- JS `BigInt.prototype.toString(base)` for the bases the codec uses
(2 and 16): minimal digit expansion, lowercase digits, and the single
character `0` for the value zero. -/
def jsNatToString (base n : Nat) : List Char :=
  if n = 0 then ['0'] else (toBaseDigits base n).map Nat.digitChar

/-- JS `#generateRandomBits`: fold the CSPRNG bytes MSB-first via
`value = (value << 8) | byte`, then mask to the requested width.  The random
bytes drawn from the CSPRNG are an explicit input here. -/
def jsGenerateRandomBits (bytes : List Nat) (bits : Nat) : Nat :=
  (bytes.foldl (fun v b => (v <<< 8) ||| b) 0) &&& ((1 <<< bits) - 1)

/-- Packed integer assembled by `generate()`: flag bit, obfuscated 6-bit
header, obfuscated timestamp (when `timestampBits > 0`), then the random
field, combined by shift-and-OR exactly as in the source.  `now` is the
clock value read during the call (`Math.floor(Date.now() / 1000)`). -/
def packedValue (cfg : Config) (now : Nat) (randBits : Nat) : Nat :=
  let headerBits := 6
  let header := cfg.timestampBits
  let timestampMask := (1 <<< cfg.timestampBits) - 1
  let timestamp := if 0 < cfg.timestampBits then now &&& timestampMask else 0
  let headerXorMask := randBits &&& ((1 <<< headerBits) - 1)
  let finalHeader := header ^^^ headerXorMask
  let finalTimestamp :=
    if 0 < cfg.timestampBits then
      timestamp ^^^ (randBits >>> (cfg.randomBits - cfg.timestampBits))
    else timestamp
  let v1 := (1 <<< headerBits) ||| finalHeader
  let v2 :=
    if 0 < cfg.timestampBits then (v1 <<< cfg.timestampBits) ||| finalTimestamp
    else v1
  (v2 <<< cfg.randomBits) ||| randBits

/-- Total bit width `1 + headerBits + timestampBits + randomBits` of the
packed value. -/
def totalBits (cfg : Config) : Nat := 1 + 6 + cfg.timestampBits + cfg.randomBits

/-- JS `generate()`.  The required output length
`Math.ceil(totalBits / Math.log2(alphabet.length))` is embedded exactly (in
exact real arithmetic) as `Nat.clog radix (2 ^ totalBits)`, the least `L`
with `2 ^ totalBits ≤ radix ^ L`; `clog_eq_ceil_logb` below proves this
equals the ceiling formula of the source. -/
def generate (cfg : Config) (now : Nat) (bytes : List Nat) : List Char :=
  let randBits := jsGenerateRandomBits bytes cfg.randomBits
  let minLength := Nat.clog cfg.baseAlphabet.length (2 ^ totalBits cfg)
  toBase cfg.baseAlphabet (packedValue cfg now randBits) minLength

/-- Decoded record produced by `decode`.  The `random` field is the
hexadecimal rendering `encodedRandom.toString(16)`; `formattedTimestamp`
models the `Date` object as the timestamp value it wraps (or `null`). -/
structure DecodeResult where
  timestampLength : Nat
  timestamp : Nat
  randomLength : Int
  random : List Char
  formattedTimestamp : Option Nat
  binary : List Char
deriving DecidableEq

/-- JS BigInt right shift of a non-negative value: a shift by a negative
count is a left shift (ES `BigInt::leftShift` is multiplication by a power
of two, with floor rounding for negative exponents). -/
def shrI (x : Nat) (s : Int) : Nat :=
  if 0 ≤ s then x >>> s.toNat else x <<< (-s).toNat

/-- JS BigInt bitwise AND of a non-negative value with a possibly negative
mask, in infinite two's complement: a negative mask `m` has ones exactly
where `-m - 1` has zeros. -/
def andI (x : Nat) (m : Int) : Nat :=
  if 0 ≤ m then x &&& m.toNat
  else Nat.bitwise (fun p q => p && !q) x (-m - 1).toNat

/-- Field extraction of `decode(id)` after the input has been converted to
the integer `full`, step for step.  `fullLength`, the shifts and
`randomBitsLength` are JS numbers that can go negative on malformed input,
so they are embedded as `Int`; the BigInt values stay non-negative.  No step
after the base conversion can fail in the source, so this part is total. -/
def decodeFull (full : Nat) : DecodeResult :=
  let binary := (jsNatToString 2 full).drop 1
  let fullLength := binary.length
  let value := full ^^^ (1 <<< fullLength)
  let headerBits : Nat := 6
  let headerMask := (1 <<< headerBits) - 1
  let headerShift : Int := (fullLength : Int) - (headerBits : Int)
  let encodedHeader := shrI value headerShift &&& headerMask
  let headerXorMask := value &&& headerMask
  let actualTimestampBits := encodedHeader ^^^ headerXorMask
  let randomBitsLength : Int := (fullLength : Int) - 6 - (actualTimestampBits : Int)
  let randomMask : Int :=
    (if 0 ≤ randomBitsLength then ((2 : Int) ^ randomBitsLength.toNat) else 0) - 1
  let encodedRandom := andI value randomMask
  if 0 < actualTimestampBits then
    let timestampShift := randomBitsLength
    let timestampMask := (1 <<< actualTimestampBits) - 1
    let encodedTimestamp := shrI value timestampShift &&& timestampMask
    let timestampXorMask :=
      shrI encodedRandom (randomBitsLength - (actualTimestampBits : Int))
    let actualTimestamp := encodedTimestamp ^^^ timestampXorMask
    { timestampLength := actualTimestampBits, timestamp := actualTimestamp,
      randomLength := randomBitsLength,
      random := jsNatToString 16 encodedRandom,
      formattedTimestamp := some actualTimestamp, binary := binary }
  else
    { timestampLength := actualTimestampBits, timestamp := 0,
      randomLength := randomBitsLength,
      random := jsNatToString 16 encodedRandom,
      formattedTimestamp := none, binary := binary }

/-- JS `decode(id)`: base conversion (the only failing step), then field
extraction. -/
def decode (cfg : Config) (id : List Char) : Except String DecodeResult :=
  match fromBase cfg.baseAlphabet id with
  | .error e => .error e
  | .ok full => .ok (decodeFull full)

/-- JS constructor, with its four eager validation steps in source order.
`timestampLength`/`entropyLength` are taken as integers so that the
negative-input checks are meaningful. -/
def mkNFUID (baseAlphabet : List Char) (timestampLength entropyLength : Int) :
    Except String Config :=
  if ¬ (baseAlphabet ≠ [] ∧ ∀ c ∈ baseAlphabet, 0x21 ≤ c.toNat ∧ c.toNat ≤ 0x7E)
      ∨ ' ' ∈ baseAlphabet then
    .error "Base alphabet must contain only valid ASCII characters without whitespace"
  else if ¬ baseAlphabet.Nodup then
    .error "Base alphabet must not contain duplicate characters"
  else if timestampLength < 0 ∨ 63 < timestampLength then
    .error "Timestamp length must be between 0 and 63 bits"
  else if entropyLength < 6 + timestampLength then
    .error "Entropy length must be at least timestamp + 6 bits"
  else
    .ok { baseAlphabet := baseAlphabet, timestampBits := timestampLength.toNat,
          randomBits := entropyLength.toNat }

/-- Configurations reachable through the constructor, strengthened by
`2 ≤ |alphabet|`: with a single-character alphabet the source's `#toBase`
loop (`n = n / 1`) never terminates, so `generate` never returns a string
and every claim about its output is vacuous there. -/
def ValidConfig (cfg : Config) : Prop :=
  2 ≤ cfg.baseAlphabet.length ∧ cfg.baseAlphabet.Nodup ∧
    cfg.timestampBits ≤ 63 ∧ 6 + cfg.timestampBits ≤ cfg.randomBits

instance (cfg : Config) : Decidable (ValidConfig cfg) := by
  unfold ValidConfig
  infer_instance

/-! ### Round-trip of the base conversion -/

theorem idxOf?_head (a : Char) (rest : List Char) :
    idxOf? (a :: rest) a = some 0 := by
  simp [idxOf?]

theorem idxOf?_get (l : List Char) (hnd : l.Nodup) (d : Nat) (hd : d < l.length) :
    idxOf? l (l.get ⟨d, hd⟩) = some d := by
  induction l generalizing d with
  | nil => simp at hd
  | cons a rest ih =>
    cases d with
    | zero => simp [idxOf?]
    | succ d =>
      have hd' : d < rest.length := by simpa using hd
      have hmem : rest.get ⟨d, hd'⟩ ∈ rest := List.get_mem rest d hd'
      have hne : a ≠ rest.get ⟨d, hd'⟩ := by
        intro h
        exact (List.nodup_cons.1 hnd).1 (h ▸ hmem)
      simp only [List.get_cons_succ, idxOf?, if_neg hne]
      rw [ih (List.nodup_cons.1 hnd).2 d hd']
      rfl

theorem fromBaseAux_append (alphabet : List Char) (radix : Nat) (acc : Nat)
    (l1 l2 : List Char) (m : Nat)
    (h1 : fromBaseAux alphabet radix acc l1 = .ok m) :
    fromBaseAux alphabet radix acc (l1 ++ l2) = fromBaseAux alphabet radix m l2 := by
  induction l1 generalizing acc with
  | nil =>
    simp only [fromBaseAux] at h1
    cases h1
    simp
  | cons c rest ih =>
    simp only [fromBaseAux, List.cons_append] at h1 ⊢
    cases hidx : idxOf? alphabet c with
    | none => rw [hidx] at h1; exact absurd h1 (by simp)
    | some v =>
      rw [hidx] at h1
      exact ih _ h1

theorem fromBaseAux_replicate_head (a : Char) (rest : List Char) (radix : Nat)
    (acc k : Nat) :
    fromBaseAux (a :: rest) radix acc (List.replicate k a) =
      .ok (acc * radix ^ k) := by
  induction k generalizing acc with
  | zero => simp [fromBaseAux]
  | succ k ih =>
    simp only [List.replicate_succ, fromBaseAux, idxOf?_head]
    rw [ih (acc * radix + 0)]
    congr 1
    ring

theorem fromBaseAux_map_digits (alphabet : List Char) (hnd : alphabet.Nodup)
    (ds : List Nat) (hds : ∀ d ∈ ds, d < alphabet.length) (acc : Nat) :
    fromBaseAux alphabet alphabet.length acc
        (ds.map (fun d => alphabet.getD d ' ')) =
      .ok (ds.foldl (fun a d => a * alphabet.length + d) acc) := by
  induction ds generalizing acc with
  | nil => simp [fromBaseAux]
  | cons d rest ih =>
    have hd : d < alphabet.length := hds d (by simp)
    have hgetD : alphabet.getD d ' ' = alphabet.get ⟨d, hd⟩ := by
      rw [List.getD_eq_getElem?_getD, List.getElem?_eq_getElem hd]
      rfl
    simp only [List.map_cons, fromBaseAux, hgetD, idxOf?_get alphabet hnd d hd]
    exact ih (fun x hx => hds x (by simp [hx])) _

/-- Round-trip at the digit level: `#fromBase` inverts `#toBase` for every
value and requested padding, over any duplicate-free alphabet of at least
two characters. -/
theorem fromBase_toBase (alphabet : List Char) (hr : 2 ≤ alphabet.length)
    (hnd : alphabet.Nodup) (n minLength : Nat) :
    fromBase alphabet (toBase alphabet n minLength) = .ok n := by
  obtain ⟨a, rest, rfl⟩ : ∃ a rest, alphabet = a :: rest := by
    cases alphabet with
    | nil => simp at hr
    | cons a rest => exact ⟨a, rest, rfl⟩
  by_cases hn : n = 0
  · subst hn
    unfold toBase fromBase
    rw [if_pos rfl, List.headD_cons, fromBaseAux_replicate_head]
    simp
  · unfold toBase fromBase
    rw [if_neg hn, List.headD_cons]
    have h1 : fromBaseAux (a :: rest) (a :: rest).length 0
        (List.replicate
          (minLength - ((toBaseDigits (a :: rest).length n).map
            (fun d => (a :: rest).getD d ' ')).length) a) = .ok 0 := by
      rw [fromBaseAux_replicate_head]
      simp
    rw [fromBaseAux_append _ _ _ _ _ 0 h1,
      fromBaseAux_map_digits (a :: rest) hnd _ (toBaseDigits_lt _ n) 0]
    congr 1
    exact toBaseDigits_val (a :: rest).length hr n

/-! ### Structure of the packed value -/

/-- Obfuscated header `finalHeader = header XOR (randBits & 63)`. -/
def fhdr (cfg : Config) (randBits : Nat) : Nat :=
  cfg.timestampBits ^^^ (randBits &&& ((1 <<< 6) - 1))

/-- Obfuscated timestamp field (0 when the timestamp is disabled). -/
def fts (cfg : Config) (now randBits : Nat) : Nat :=
  if 0 < cfg.timestampBits then
    (now &&& ((1 <<< cfg.timestampBits) - 1)) ^^^
      (randBits >>> (cfg.randomBits - cfg.timestampBits))
  else 0

theorem lor_shiftLeft_eq_add (x y k : Nat) (hy : y < 2 ^ k) :
    (x <<< k) ||| y = x * 2 ^ k + y := by
  rw [Nat.shiftLeft_eq, Nat.mul_comm x (2 ^ k), ← Nat.mul_add_lt_is_or hy x,
    Nat.mul_comm (2 ^ k) x]

theorem and_mask_lt (x k : Nat) : x &&& ((1 <<< k) - 1) < 2 ^ k := by
  rw [Nat.one_shiftLeft, Nat.and_pow_two_sub_one_eq_mod]
  exact Nat.mod_lt _ (Nat.pos_pow_of_pos k (by norm_num))

theorem fhdr_lt (cfg : Config) (randBits : Nat) (htb : cfg.timestampBits ≤ 63) :
    fhdr cfg randBits < 2 ^ 6 := by
  unfold fhdr
  apply Nat.xor_lt_two_pow
  · calc cfg.timestampBits ≤ 63 := htb
      _ < 2 ^ 6 := by norm_num
  · exact and_mask_lt randBits 6

theorem shiftRight_lt_pow (x a b : Nat) (hx : x < 2 ^ (a + b)) :
    x >>> a < 2 ^ b := by
  rw [Nat.shiftRight_eq_div_pow]
  rw [Nat.div_lt_iff_lt_mul (Nat.pos_pow_of_pos a (by norm_num))]
  calc x < 2 ^ (a + b) := hx
    _ = 2 ^ b * 2 ^ a := by rw [← Nat.pow_add]; ring_nf

theorem fts_lt (cfg : Config) (now randBits : Nat)
    (hrand : randBits < 2 ^ cfg.randomBits)
    (h : cfg.timestampBits ≤ cfg.randomBits) :
    fts cfg now randBits < 2 ^ cfg.timestampBits := by
  unfold fts
  by_cases htb : 0 < cfg.timestampBits
  · simp only [htb, if_true]
    apply Nat.xor_lt_two_pow (and_mask_lt now cfg.timestampBits)
    apply shiftRight_lt_pow
    have : cfg.randomBits - cfg.timestampBits + cfg.timestampBits = cfg.randomBits := by
      omega
    rw [this]
    exact hrand
  · simp only [htb, if_false]
    exact Nat.pos_pow_of_pos _ (by norm_num)

/-- The packed value, rewritten from shift-and-OR form to plain positional
arithmetic `(64 + finalHeader) · 2^(tb+rb) + finalTimestamp · 2^rb + randBits`. -/
theorem packedValue_eq (cfg : Config) (now randBits : Nat)
    (hrand : randBits < 2 ^ cfg.randomBits) (htb63 : cfg.timestampBits ≤ 63)
    (htbrb : cfg.timestampBits ≤ cfg.randomBits) :
    packedValue cfg now randBits =
      (64 + fhdr cfg randBits) * 2 ^ (cfg.timestampBits + cfg.randomBits) +
        fts cfg now randBits * 2 ^ cfg.randomBits + randBits := by
  have hfh : fhdr cfg randBits < 2 ^ 6 := fhdr_lt cfg randBits htb63
  have hft := fts_lt cfg now randBits hrand htbrb
  unfold packedValue fhdr fts at *
  by_cases h : 0 < cfg.timestampBits
  · simp only [h, if_true] at *
    rw [lor_shiftLeft_eq_add 1 _ 6 hfh, lor_shiftLeft_eq_add _ _ _ hft,
      lor_shiftLeft_eq_add _ _ _ hrand]
    ring
  · have htb0 : cfg.timestampBits = 0 := by omega
    simp only [h, if_false] at *
    rw [lor_shiftLeft_eq_add 1 _ 6 hfh, lor_shiftLeft_eq_add _ _ _ hrand]
    rw [htb0]
    ring

theorem packedValue_ge (cfg : Config) (now randBits : Nat)
    (hrand : randBits < 2 ^ cfg.randomBits) (htb63 : cfg.timestampBits ≤ 63)
    (htbrb : cfg.timestampBits ≤ cfg.randomBits) :
    2 ^ (6 + cfg.timestampBits + cfg.randomBits) ≤ packedValue cfg now randBits := by
  rw [packedValue_eq cfg now randBits hrand htb63 htbrb]
  have h1 : 2 ^ (6 + cfg.timestampBits + cfg.randomBits) =
      64 * 2 ^ (cfg.timestampBits + cfg.randomBits) := by
    rw [show (64 : Nat) = 2 ^ 6 by norm_num, ← Nat.pow_add]
    ring_nf
  rw [h1]
  have : 64 * 2 ^ (cfg.timestampBits + cfg.randomBits) ≤
      (64 + fhdr cfg randBits) * 2 ^ (cfg.timestampBits + cfg.randomBits) :=
    Nat.mul_le_mul_right _ (by omega)
  omega

theorem packedValue_lt (cfg : Config) (now randBits : Nat)
    (hrand : randBits < 2 ^ cfg.randomBits) (htb63 : cfg.timestampBits ≤ 63)
    (htbrb : cfg.timestampBits ≤ cfg.randomBits) :
    packedValue cfg now randBits < 2 ^ (7 + cfg.timestampBits + cfg.randomBits) := by
  rw [packedValue_eq cfg now randBits hrand htb63 htbrb]
  have hfh := fhdr_lt cfg randBits htb63
  have hft := fts_lt cfg now randBits hrand htbrb
  have hlow : fts cfg now randBits * 2 ^ cfg.randomBits + randBits <
      2 ^ (cfg.timestampBits + cfg.randomBits) := by
    have h1 : fts cfg now randBits * 2 ^ cfg.randomBits ≤
        (2 ^ cfg.timestampBits - 1) * 2 ^ cfg.randomBits :=
      Nat.mul_le_mul_right _ (by omega)
    have h2 : (2 ^ cfg.timestampBits - 1) * 2 ^ cfg.randomBits + 2 ^ cfg.randomBits =
        2 ^ (cfg.timestampBits + cfg.randomBits) := by
      rw [Nat.sub_one_mul, Nat.pow_add]
      have := Nat.le_mul_of_pos_left (2 ^ cfg.randomBits)
        (Nat.pos_pow_of_pos cfg.timestampBits (show 0 < 2 by norm_num))
      omega
    omega
  have hhigh : (64 + fhdr cfg randBits) * 2 ^ (cfg.timestampBits + cfg.randomBits) ≤
      127 * 2 ^ (cfg.timestampBits + cfg.randomBits) :=
    Nat.mul_le_mul_right _ (by omega)
  have h128 : 2 ^ (7 + cfg.timestampBits + cfg.randomBits) =
      128 * 2 ^ (cfg.timestampBits + cfg.randomBits) := by
    rw [show (128 : Nat) = 2 ^ 7 by norm_num, ← Nat.pow_add]
    ring_nf
  omega

/-! ### Decoding the packed value -/

theorem xor_clear_flag (L payload : Nat) (h : payload < 2 ^ L) :
    (2 ^ L + payload) ^^^ (1 <<< L) = payload := by
  rw [Nat.one_shiftLeft]
  have hor : 2 ^ L + payload = 2 ^ L ||| payload := by
    have := Nat.mul_add_lt_is_or h 1
    simpa using this
  rw [hor]
  apply Nat.eq_of_testBit_eq
  intro i
  simp only [Nat.testBit_xor, Nat.testBit_or, Nat.testBit_two_pow]
  by_cases hi : L = i
  · subst hi
    simp [Nat.testBit_lt_two_pow h]
  · simp [hi]

theorem low_bits_lt (B C tb rb : Nat) (hB : B < 2 ^ tb) (hC : C < 2 ^ rb) :
    B * 2 ^ rb + C < 2 ^ (tb + rb) := by
  have h1 : B * 2 ^ rb ≤ (2 ^ tb - 1) * 2 ^ rb :=
    Nat.mul_le_mul_right _ (by omega)
  have h2 : (2 ^ tb - 1) * 2 ^ rb + 2 ^ rb = 2 ^ (tb + rb) := by
    rw [Nat.sub_one_mul, Nat.pow_add]
    have := Nat.le_mul_of_pos_left (2 ^ rb)
      (Nat.pos_pow_of_pos tb (show 0 < 2 by norm_num))
    omega
  omega

theorem packed_payload_lt (A B C e tb rb : Nat) (hA : A < 2 ^ e)
    (hB : B < 2 ^ tb) (hC : C < 2 ^ rb) :
    A * 2 ^ (tb + rb) + B * 2 ^ rb + C < 2 ^ (e + (tb + rb)) := by
  have h1 := low_bits_lt B C tb rb hB hC
  have h2 : A * 2 ^ (tb + rb) ≤ (2 ^ e - 1) * 2 ^ (tb + rb) :=
    Nat.mul_le_mul_right _ (by omega)
  have h3 : (2 ^ e - 1) * 2 ^ (tb + rb) + 2 ^ (tb + rb) = 2 ^ (e + (tb + rb)) := by
    have hp : (2 : Nat) ^ (e + (tb + rb)) = 2 ^ e * 2 ^ (tb + rb) :=
      Nat.pow_add 2 e (tb + rb)
    rw [Nat.sub_one_mul, hp]
    have := Nat.le_mul_of_pos_left (2 ^ (tb + rb))
      (Nat.pos_pow_of_pos e (show 0 < 2 by norm_num))
    omega
  omega

theorem slice_div_high (A B C tb rb : Nat) (hB : B < 2 ^ tb) (hC : C < 2 ^ rb) :
    (A * 2 ^ (tb + rb) + B * 2 ^ rb + C) / 2 ^ (tb + rb) = A := by
  have hlow := low_bits_lt B C tb rb hB hC
  rw [Nat.add_assoc, Nat.mul_comm A,
    Nat.mul_add_div (Nat.pos_pow_of_pos _ (by norm_num)),
    Nat.div_eq_of_lt hlow]
  omega

theorem slice_mod_low (A B C tb rb : Nat) (hC : C < 2 ^ rb) :
    (A * 2 ^ (tb + rb) + B * 2 ^ rb + C) % 2 ^ rb = C := by
  have h : A * 2 ^ (tb + rb) + B * 2 ^ rb + C =
      2 ^ rb * (A * 2 ^ tb + B) + C := by
    rw [Nat.pow_add]
    ring
  rw [h, Nat.mul_add_mod, Nat.mod_eq_of_lt hC]

theorem slice_div_mid (A B C tb rb : Nat) (hC : C < 2 ^ rb) :
    (A * 2 ^ (tb + rb) + B * 2 ^ rb + C) / 2 ^ rb = A * 2 ^ tb + B := by
  have h : A * 2 ^ (tb + rb) + B * 2 ^ rb + C =
      2 ^ rb * (A * 2 ^ tb + B) + C := by
    rw [Nat.pow_add]
    ring
  rw [h, Nat.mul_add_div (Nat.pos_pow_of_pos _ (by norm_num)),
    Nat.div_eq_of_lt hC]
  omega

theorem slice_mod_64 (A B C tb rb : Nat) (h6 : 6 ≤ rb) :
    (A * 2 ^ (tb + rb) + B * 2 ^ rb + C) % 2 ^ 6 = C % 2 ^ 6 := by
  have e1 : (2 : Nat) ^ (tb + rb) = 2 ^ 6 * 2 ^ (tb + rb - 6) := by
    rw [← Nat.pow_add]
    congr 1
    omega
  have e2 : (2 : Nat) ^ rb = 2 ^ 6 * 2 ^ (rb - 6) := by
    rw [← Nat.pow_add]
    congr 1
    omega
  conv_lhs => rw [e1, e2]
  rw [show A * (2 ^ 6 * 2 ^ (tb + rb - 6)) + B * (2 ^ 6 * 2 ^ (rb - 6)) + C =
      2 ^ 6 * (A * 2 ^ (tb + rb - 6) + B * 2 ^ (rb - 6)) + C from by ring,
    Nat.mul_add_mod]

theorem and_shift_mask (x k : Nat) : x &&& ((1 <<< k) - 1) = x % 2 ^ k := by
  rw [Nat.one_shiftLeft, Nat.and_pow_two_sub_one_eq_mod]

theorem shrI_natCast (x k : Nat) : shrI x (k : Int) = x >>> k := by
  simp [shrI]

theorem andI_nonneg (x : Nat) (m : Int) (h : 0 ≤ m) : andI x m = x &&& m.toNat := by
  simp [andI, h]

theorem jsNatToString_two_length (n L : Nat) (h1 : 2 ^ L ≤ n)
    (h2 : n < 2 ^ (L + 1)) : (jsNatToString 2 n).length = L + 1 := by
  have hp : 0 < 2 ^ L := Nat.pos_pow_of_pos L (by norm_num)
  have hn : n ≠ 0 := by omega
  unfold jsNatToString
  rw [if_neg hn, List.length_map, toBaseDigits_length 2 (le_refl 2) n hn,
    Nat.log_eq_of_pow_le_of_lt_pow h1 h2]

/-- Field extraction applied to a well-formed packed value
`(64 + A)·2^(tb+rb) + B·2^rb + C` (flag and header in the top bits,
timestamp field `B`, random field `C`): every field is recovered. -/
theorem decodeFull_structured (A B C tb rb : Nat) (hA : A < 2 ^ 6)
    (hB : B < 2 ^ tb) (hC : C < 2 ^ rb) (h6 : 6 ≤ rb) (htbrb : tb ≤ rb)
    (hATB : A ^^^ C % 2 ^ 6 = tb) :
    decodeFull ((64 + A) * 2 ^ (tb + rb) + B * 2 ^ rb + C) =
      { timestampLength := tb,
        timestamp := if 0 < tb then B ^^^ (C >>> (rb - tb)) else 0,
        randomLength := (rb : Int),
        random := jsNatToString 16 C,
        formattedTimestamp :=
          if 0 < tb then some (B ^^^ (C >>> (rb - tb))) else none,
        binary := (jsNatToString 2
          ((64 + A) * 2 ^ (tb + rb) + B * 2 ^ rb + C)).drop 1 } := by
  have hsplit : (64 + A) * 2 ^ (tb + rb) + B * 2 ^ rb + C =
      2 ^ (6 + (tb + rb)) + (A * 2 ^ (tb + rb) + B * 2 ^ rb + C) := by
    have hp : (2 : Nat) ^ (6 + (tb + rb)) = 64 * 2 ^ (tb + rb) := by
      rw [Nat.pow_add]
    rw [hp]
    ring
  have hpay_lt : A * 2 ^ (tb + rb) + B * 2 ^ rb + C < 2 ^ (6 + (tb + rb)) :=
    packed_payload_lt A B C 6 tb rb hA hB hC
  have hP_ge : 2 ^ (6 + (tb + rb)) ≤ (64 + A) * 2 ^ (tb + rb) + B * 2 ^ rb + C := by
    omega
  have hP_lt : (64 + A) * 2 ^ (tb + rb) + B * 2 ^ rb + C < 2 ^ (6 + (tb + rb) + 1) := by
    have hp : (2 : Nat) ^ (6 + (tb + rb) + 1) = 2 ^ (6 + (tb + rb)) * 2 :=
      Nat.pow_succ 2 (6 + (tb + rb))
    omega
  have hbinlen : (jsNatToString 2
      ((64 + A) * 2 ^ (tb + rb) + B * 2 ^ rb + C)).length = 6 + (tb + rb) + 1 :=
    jsNatToString_two_length _ _ hP_ge hP_lt
  have hlen2 : ((jsNatToString 2
      ((64 + A) * 2 ^ (tb + rb) + B * 2 ^ rb + C)).drop 1).length = 6 + (tb + rb) := by
    rw [List.length_drop, hbinlen]
    omega
  have hxor : ((64 + A) * 2 ^ (tb + rb) + B * 2 ^ rb + C) ^^^
      (1 <<< (6 + (tb + rb))) = A * 2 ^ (tb + rb) + B * 2 ^ rb + C := by
    rw [hsplit]
    exact xor_clear_flag _ _ hpay_lt
  have hshift : ((6 + (tb + rb) : Nat) : Int) - ((6 : Nat) : Int) =
      ((tb + rb : Nat) : Int) := by
    omega
  have hdr : (A * 2 ^ (tb + rb) + B * 2 ^ rb + C) >>> (tb + rb) &&&
      ((1 <<< 6) - 1) = A := by
    rw [Nat.shiftRight_eq_div_pow, slice_div_high A B C tb rb hB hC,
      and_shift_mask, Nat.mod_eq_of_lt hA]
  have hmask : (A * 2 ^ (tb + rb) + B * 2 ^ rb + C) &&& ((1 <<< 6) - 1) =
      C % 2 ^ 6 := by
    rw [and_shift_mask, slice_mod_64 A B C tb rb h6]
  have hrbl : ((6 + (tb + rb) : Nat) : Int) - 6 - ((tb : Nat) : Int) =
      ((rb : Nat) : Int) := by
    omega
  have hm2 : ((2 : Int) ^ rb) = ((2 ^ rb : Nat) : Int) := by
    push_cast
    ring
  have hp1 : (1 : Nat) ≤ 2 ^ rb := Nat.pos_pow_of_pos rb (by norm_num)
  have hmt : ((2 : Int) ^ rb - 1).toNat = 2 ^ rb - 1 := by
    rw [hm2]
    omega
  have hmnn : (0 : Int) ≤ (2 : Int) ^ rb - 1 := by
    rw [hm2]
    omega
  have hrnd : andI (A * 2 ^ (tb + rb) + B * 2 ^ rb + C) ((2 : Int) ^ rb - 1) = C := by
    rw [andI_nonneg _ _ hmnn, hmt, Nat.and_pow_two_sub_one_eq_mod,
      slice_mod_low A B C tb rb hC]
  have hmid : (A * 2 ^ (tb + rb) + B * 2 ^ rb + C) >>> rb &&&
      ((1 <<< tb) - 1) = B := by
    rw [Nat.shiftRight_eq_div_pow, slice_div_mid A B C tb rb hC,
      and_shift_mask, Nat.mul_comm A, Nat.mul_add_mod, Nat.mod_eq_of_lt hB]
  have hsub : ((rb : Nat) : Int) - ((tb : Nat) : Int) = ((rb - tb : Nat) : Int) :=
    (Int.natCast_sub htbrb).symm
  unfold decodeFull
  simp only [hlen2, hshift, shrI_natCast, hxor, hdr, hmask, hATB, hrbl]
  rw [if_pos (by positivity : (0 : Int) ≤ ((rb : Nat) : Int))]
  simp only [Int.toNat_natCast, hrnd, hmid, hsub, shrI_natCast]
  by_cases htb : 0 < tb
  · simp [htb]
  · simp [htb]

theorem decode_of_fromBase_ok (cfg : Config) (id : List Char) (full : Nat)
    (h : fromBase cfg.baseAlphabet id = .ok full) :
    decode cfg id = .ok (decodeFull full) := by
  unfold decode
  rw [h]

theorem fhdr_cancel (cfg : Config) (randBits : Nat) :
    fhdr cfg randBits ^^^ randBits % 2 ^ 6 = cfg.timestampBits := by
  unfold fhdr
  rw [and_shift_mask]
  exact Nat.xor_cancel_right _ _

theorem fts_cancel (cfg : Config) (now randBits : Nat)
    (htb : 0 < cfg.timestampBits) :
    fts cfg now randBits ^^^
      (randBits >>> (cfg.randomBits - cfg.timestampBits)) = now % 2 ^ cfg.timestampBits := by
  unfold fts
  rw [if_pos htb, Nat.xor_cancel_right, and_shift_mask]

theorem jsGenerateRandomBits_lt (bytes : List Nat) (bits : Nat) :
    jsGenerateRandomBits bytes bits < 2 ^ bits := by
  unfold jsGenerateRandomBits
  exact and_mask_lt _ _

/-- Decoding a freshly generated identifier with the same instance: all
fields are recovered; in particular the decoded timestamp equals the clock
value masked to `timestampBits` bits. -/
theorem decode_generate (cfg : Config) (hv : ValidConfig cfg) (now : Nat)
    (bytes : List Nat) :
    decode cfg (generate cfg now bytes) =
      .ok { timestampLength := cfg.timestampBits,
            timestamp :=
              if 0 < cfg.timestampBits then now % 2 ^ cfg.timestampBits else 0,
            randomLength := (cfg.randomBits : Int),
            random := jsNatToString 16 (jsGenerateRandomBits bytes cfg.randomBits),
            formattedTimestamp :=
              if 0 < cfg.timestampBits then some (now % 2 ^ cfg.timestampBits)
              else none,
            binary := (jsNatToString 2 (packedValue cfg now
              (jsGenerateRandomBits bytes cfg.randomBits))).drop 1 } := by
  obtain ⟨hr2, hnd, htb63, hrb6⟩ := hv
  have htbrb : cfg.timestampBits ≤ cfg.randomBits := by omega
  have hrb6' : 6 ≤ cfg.randomBits := by omega
  have hrand := jsGenerateRandomBits_lt bytes cfg.randomBits
  have hfb : fromBase cfg.baseAlphabet (generate cfg now bytes) =
      .ok (packedValue cfg now (jsGenerateRandomBits bytes cfg.randomBits)) := by
    unfold generate
    exact fromBase_toBase _ hr2 hnd _ _
  rw [decode_of_fromBase_ok cfg _ _ hfb]
  congr 1
  rw [packedValue_eq cfg now _ hrand htb63 htbrb]
  rw [decodeFull_structured (fhdr cfg _) (fts cfg now _) _
    cfg.timestampBits cfg.randomBits (fhdr_lt cfg _ htb63)
    (fts_lt cfg now _ hrand htbrb) hrand hrb6' htbrb (fhdr_cancel cfg _)]
  by_cases htb : 0 < cfg.timestampBits
  · simp [htb, fts_cancel cfg now _ htb]
  · simp [htb]

/-! ### Output length of generate -/

theorem toBase_length_of_le (alphabet : List Char) (n L : Nat) (hn : n ≠ 0)
    (hlen : (toBaseDigits alphabet.length n).length ≤ L) :
    (toBase alphabet n L).length = L := by
  unfold toBase
  rw [if_neg hn]
  simp only [List.length_append, List.length_replicate, List.length_map]
  omega

theorem packedValue_ne_zero (cfg : Config) (now randBits : Nat)
    (hrand : randBits < 2 ^ cfg.randomBits) (htb63 : cfg.timestampBits ≤ 63)
    (htbrb : cfg.timestampBits ≤ cfg.randomBits) :
    packedValue cfg now randBits ≠ 0 := by
  have hge := packedValue_ge cfg now randBits hrand htb63 htbrb
  have := Nat.pos_pow_of_pos (6 + cfg.timestampBits + cfg.randomBits)
    (show 0 < 2 by norm_num)
  omega

/-- The output of `generate` always has exactly
`clog radix (2^totalBits)` characters: the padding target dominates the
natural digit count of the packed value. -/
theorem generate_length (cfg : Config) (hv : ValidConfig cfg) (now : Nat)
    (bytes : List Nat) :
    (generate cfg now bytes).length =
      Nat.clog cfg.baseAlphabet.length (2 ^ totalBits cfg) := by
  obtain ⟨hr2, hnd, htb63, hrb6⟩ := hv
  have htbrb : cfg.timestampBits ≤ cfg.randomBits := by omega
  have hrand := jsGenerateRandomBits_lt bytes cfg.randomBits
  have hP0 := packedValue_ne_zero cfg now _ hrand htb63 htbrb
  have hlt : packedValue cfg now (jsGenerateRandomBits bytes cfg.randomBits) <
      2 ^ totalBits cfg := by
    have h := packedValue_lt cfg now _ hrand htb63 htbrb
    have he : totalBits cfg = 7 + cfg.timestampBits + cfg.randomBits := by
      unfold totalBits
      omega
    rw [he]
    exact h
  unfold generate
  apply toBase_length_of_le _ _ _ hP0
  rw [toBaseDigits_length _ hr2 _ hP0]
  have h2 : 2 ^ totalBits cfg ≤
      cfg.baseAlphabet.length ^ Nat.clog cfg.baseAlphabet.length (2 ^ totalBits cfg) :=
    Nat.le_pow_clog (by omega) _
  have h3 := (Nat.lt_pow_iff_log_lt (show 1 < cfg.baseAlphabet.length by omega)
    hP0).1 (lt_of_lt_of_le hlt h2)
  omega

/-- The computable padding target `clog radix (2^t)` is exactly the
`ceil(t / log2 radix)` of the source, read in exact real arithmetic. -/
theorem clog_eq_ceil_logb (r t : Nat) (hr : 2 ≤ r) :
    Nat.clog r (2 ^ t) = ⌈(t : ℝ) / Real.logb 2 (r : ℝ)⌉₊ := by
  have hr1 : (1 : ℝ) < (r : ℝ) := by
    exact_mod_cast show (1 : Nat) < r by omega
  have hlogb : 0 < Real.logb 2 (r : ℝ) := Real.logb_pos (by norm_num) hr1
  have hlog2 : 0 < Real.log 2 := Real.log_pos (by norm_num)
  have hlogr : 0 < Real.log (r : ℝ) := Real.log_pos hr1
  have key : ∀ n : Nat, ((t : ℝ) / Real.logb 2 (r : ℝ) ≤ (n : ℝ)) ↔
      2 ^ t ≤ r ^ n := by
    intro n
    rw [div_le_iff₀ hlogb, Real.logb, ← mul_div_assoc,
      le_div_iff₀ hlog2]
    have e1 : (t : ℝ) * Real.log 2 = Real.log ((2 : ℝ) ^ t) := by
      rw [Real.log_pow]
    have e2 : (n : ℝ) * Real.log (r : ℝ) = Real.log ((r : ℝ) ^ n) := by
      rw [Real.log_pow]
    rw [e1, e2, Real.log_le_log_iff (by positivity) (by positivity)]
    constructor
    · intro h
      exact_mod_cast h
    · intro h
      exact_mod_cast h
  apply Nat.le_antisymm
  · rw [← Nat.le_pow_iff_clog_le (show 1 < r by omega)]
    exact (key _).1 (Nat.le_ceil _)
  · rw [Nat.ceil_le]
    exact (key _).2 (Nat.le_pow_clog (by omega) _)

/-! ### The PHP arbitrary-precision substrate (`php/src/NFUID.php`)

A PHP decimal string is modelled as the list of its digit values, most
significant first (each character of the string stands for its digit).  The
numeric reading of such a list is `val10`. -/

/-- Numeric value of a decimal digit string, most significant digit first. -/
def val10 (l : List Nat) : Nat := ofDigitsBE 10 l

/-- Numeric value of a least-significant-first digit list. -/
def valLE (l : List Nat) : Nat := l.foldr (fun d acc => d + 10 * acc) 0

/-- Well-formed PHP number string: non-empty, decimal digits, and no
leading zero except for `"0"` itself. -/
def Canon (l : List Nat) : Prop :=
  l ≠ [] ∧ (∀ d ∈ l, d < 10) ∧ (l.head? ≠ some 0 ∨ l = [0])

instance (l : List Nat) : Decidable (Canon l) := by
  unfold Canon
  infer_instance

/-- Decimal digit string of a machine integer — PHP's `(string)$n` cast. -/
def decDigits (n : Nat) : List Nat := if n = 0 then [0] else toBaseDigits 10 n

/-- Trailing-carry loop of `bigAdd`: while `carry > 0` emit `carry % 10`
(little-endian here). -/
def carryDigitsLE (c : Nat) : List Nat :=
  if _h : c = 0 then [] else (c % 10) :: carryDigitsLE (c / 10)
termination_by c
decreasing_by exact Nat.div_lt_self (by omega) (by norm_num)

/-- Digit loop of `bigAdd` on least-significant-first digit lists: digits
plus carry while either operand or the carry remains. -/
def addLoop : List Nat → List Nat → Nat → List Nat
  | [], [], c => carryDigitsLE c
  | [], y :: ys, c => ((y + c) % 10) :: addLoop [] ys ((y + c) / 10)
  | x :: xs, [], c => ((x + c) % 10) :: addLoop xs [] ((x + c) / 10)
  | x :: xs, y :: ys, c => ((x + y + c) % 10) :: addLoop xs ys ((x + y + c) / 10)

/-- PHP `bigAdd`: schoolbook addition from the least significant end. -/
def bigAdd (a b : List Nat) : List Nat :=
  (addLoop a.reverse b.reverse 0).reverse

/-- Lexicographic comparison of two equal-length digit strings —
`strcmp <=> 0` on digit characters. -/
def lexCompare : List Nat → List Nat → Int
  | [], _ => 0
  | _ :: _, [] => 0
  | x :: xs, y :: ys =>
    if x < y then -1 else if y < x then 1 else lexCompare xs ys

/-- PHP `bigCompare`: longer string wins, equal lengths compare
lexicographically. -/
def bigCompare (a b : List Nat) : Int :=
  if a.length > b.length then 1
  else if a.length < b.length then -1
  else lexCompare a b

/-- PHP `ltrim($s, '0') ?: '0'` on a most-significant-first digit list. -/
def ltrim (l : List Nat) : List Nat :=
  match l.dropWhile (fun d => d == 0) with
  | [] => [0]
  | t => t

/-- Digit loop of `bigSub` on least-significant-first lists: runs over all
of `a`'s digits, borrowing; `b` is implicitly zero-padded. -/
def subLoopLE : List Nat → List Nat → Nat → List Nat
  | [], _, _ => []
  | x :: xs, ys, br =>
    if x < ys.headD 0 + br then
      (10 + x - ys.headD 0 - br) :: subLoopLE xs ys.tail 1
    else
      (x - ys.headD 0 - br) :: subLoopLE xs ys.tail 0

/-- PHP `bigSub`: clamps to `'0'` when `a < b`, otherwise schoolbook
subtraction with borrow followed by `ltrim`. -/
def bigSub (a b : List Nat) : List Nat :=
  if bigCompare a b < 0 then [0]
  else ltrim (subLoopLE a.reverse b.reverse 0).reverse

/-- One inner step of `bigMul`: `sum = a[i]*b[j] + result[p2]`,
`result[p2] = sum % 10`, `result[p1] += sum / 10` (`p1 = p2 - 1`). -/
def mulStep (dA dB p2 : Nat) (arr : List Nat) : List Nat :=
  let sum := dA * dB + arr.getD p2 0
  let arr1 := arr.set p2 (sum % 10)
  arr1.set (p2 - 1) (arr1.getD (p2 - 1) 0 + sum / 10)

/-- Inner loop of `bigMul` for row `i`: `j` from `cnt - 1` down to 0. -/
def rowLoop (dA : Nat) (b : List Nat) (i : Nat) : Nat → List Nat → List Nat
  | 0, arr => arr
  | j + 1, arr => rowLoop dA b i j (mulStep dA (b.getD j 0) (i + j + 1) arr)

/-- Outer loop of `bigMul`: `i` from `cnt - 1` down to 0. -/
def mulLoop (a b : List Nat) : Nat → List Nat → List Nat
  | 0, arr => arr
  | i + 1, arr => mulLoop a b i (rowLoop (a.getD i 0) b i b.length arr)

/-- PHP `implode('', $result)`: each array cell (an int) contributes its
decimal rendering.  On cells that are single digits this is the identity. -/
def implodeDigits (l : List Nat) : List Nat :=
  l.foldr (fun d acc => decDigits d ++ acc) []

/-- PHP `bigMul`: positional schoolbook multiplication into an array of
`lenA + lenB` cells, then implode and trim. -/
def bigMul (a b : List Nat) : List Nat :=
  ltrim (implodeDigits (mulLoop a b a.length (List.replicate (a.length + b.length) 0)))

/-- Inner `while (bigCompare(remainder, b) >= 0)` loop of `bigDiv`/`bigMod`,
counting subtractions.  The loop of the source has no fuel; the fuel is an
upper bound on the iteration count supplied at the call site, large enough
whenever the divisor is non-zero. -/
def subCountLoop (b : List Nat) : Nat → List Nat → List Nat × Nat
  | 0, rem => (rem, 0)
  | fuel + 1, rem =>
    if 0 ≤ bigCompare rem b then
      ((subCountLoop b fuel (bigSub rem b)).1,
        (subCountLoop b fuel (bigSub rem b)).2 + 1)
    else (rem, 0)

/-- Digit loop of `bigDiv`, threading `(quotient digits, remainder)`.  The
appended quotient digit is the decimal rendering of the subtraction count
(`$result .= $count`). -/
def divLoop (b : List Nat) : List Nat → List Nat × List Nat → List Nat × List Nat
  | [], s => s
  | d :: ds, s =>
    divLoop b ds
      (s.1 ++ decDigits (subCountLoop b
          (val10 (bigAdd (bigMul s.2 [1, 0]) (decDigits d)) + 1)
          (bigAdd (bigMul s.2 [1, 0]) (decDigits d))).2,
        (subCountLoop b
          (val10 (bigAdd (bigMul s.2 [1, 0]) (decDigits d)) + 1)
          (bigAdd (bigMul s.2 [1, 0]) (decDigits d))).1)

/-- PHP `bigDiv`: returns `'0'` for a zero divisor (no error!) or when
`a < b`; otherwise decimal long division. -/
def bigDiv (a b : List Nat) : List Nat :=
  if b = [0] then [0]
  else if bigCompare a b < 0 then [0]
  else ltrim (divLoop b a ([], [0])).1

/-- Digit loop of `bigMod` (same as `bigDiv` without the quotient). -/
def modLoop (b : List Nat) : List Nat → List Nat → List Nat
  | [], rem => rem
  | d :: ds, rem =>
    modLoop b ds (subCountLoop b
      (val10 (bigAdd (bigMul rem [1, 0]) (decDigits d)) + 1)
      (bigAdd (bigMul rem [1, 0]) (decDigits d))).1

/-- PHP `bigMod`: returns `'0'` for a zero divisor (no error!), otherwise
the remainder of decimal long division. -/
def bigMod (a b : List Nat) : List Nat :=
  if b = [0] then [0] else modLoop b a [0]

/-- Repeated-multiplication loop of `bigPow`. -/
def powLoop (base : List Nat) : Nat → List Nat
  | 0 => [1]
  | k + 1 => bigMul (powLoop base k) base

/-- PHP `bigPow`: `'1'` for exponent `'0'`, else `(int)$exp` rounds of
`bigMul`. -/
def bigPow (base exp : List Nat) : List Nat :=
  if exp = [0] then [1] else powLoop base (val10 exp)

/-- PHP `bigLeftShift`: multiply by `2^bits`. -/
def bigLeftShift (a : List Nat) (bits : Nat) : List Nat :=
  bigMul a (bigPow [2] (decDigits bits))

/-- PHP `bigRightShift`: divide by `2^bits`. -/
def bigRightShift (a : List Nat) (bits : Nat) : List Nat :=
  bigDiv a (bigPow [2] (decDigits bits))

/-- Bit-collecting loop of `decToBin`: while `dec > 0`, prepend
`bigMod(dec, 2)` and halve.  Fuelled like `subCountLoop`. -/
def binLoop : Nat → List Nat → List Nat
  | 0, _ => []
  | fuel + 1, dec =>
    if 0 < bigCompare dec [0] then
      binLoop fuel (bigDiv dec [2]) ++ bigMod dec [2]
    else []

/-- PHP `decToBin`: binary digit string (MSB first) of a decimal string. -/
def decToBin (dec : List Nat) : List Nat :=
  if dec = [0] then [0]
  else
    match binLoop (val10 dec + 1) dec with
    | [] => [0]
    | l => l

/-- PHP `binToDec`: fold the binary string from its last character,
accumulating `dec` and doubling `power`. -/
def binToDec (bin : List Nat) : List Nat :=
  (bin.foldr
    (fun bit s => (if bit = 1 then bigAdd s.1 s.2 else s.1, bigMul s.2 [2]))
    ([0], [1])).1

/-- PHP `bigAnd`: convert both operands to binary, left-pad to equal
length, combine bitwise, convert back. -/
def bigAnd (a b : List Nat) : List Nat :=
  let binA := decToBin a
  let binB := decToBin b
  let maxLen := max binA.length binB.length
  let pA := List.replicate (maxLen - binA.length) 0 ++ binA
  let pB := List.replicate (maxLen - binB.length) 0 ++ binB
  binToDec (List.zipWith (fun x y => if x = 1 ∧ y = 1 then 1 else 0) pA pB)

/-- PHP `bigXor`: like `bigAnd` with the inequality combiner. -/
def bigXor (a b : List Nat) : List Nat :=
  let binA := decToBin a
  let binB := decToBin b
  let maxLen := max binA.length binB.length
  let pA := List.replicate (maxLen - binA.length) 0 ++ binA
  let pB := List.replicate (maxLen - binB.length) 0 ++ binB
  binToDec (List.zipWith (fun x y => if x ≠ y then 1 else 0) pA pB)

/-- PHP `generateRandomBits`: fold the random bytes in base 256, drop the
unused bits of the last byte when `bits` is not a byte multiple, then mask
to `bits` bits. -/
def phpGenerateRandomBits (randomBytes : List Nat) (bits : Nat) : List Nat :=
  let value := randomBytes.foldl
    (fun v byte => bigAdd (bigMul v [2, 5, 6]) (decDigits byte)) [0]
  let value2 :=
    if bits % 8 ≠ 0 then bigRightShift value (8 - bits % 8) else value
  let mask := bigSub (bigPow [2] (decDigits bits)) [1]
  bigAnd value2 mask

/-! ### Substrate basics -/

theorem val10_nil : val10 [] = 0 := rfl

theorem val10_cons (d : Nat) (t : List Nat) :
    val10 (d :: t) = d * 10 ^ t.length + val10 t :=
  ofDigitsBE_cons 10 d t

theorem val10_append_singleton (l : List Nat) (d : Nat) :
    val10 (l ++ [d]) = val10 l * 10 + d :=
  ofDigitsBE_append_singleton 10 l d

theorem valLE_cons (d : Nat) (t : List Nat) :
    valLE (d :: t) = d + 10 * valLE t := rfl

theorem valLE_append_singleton (u : List Nat) (d : Nat) :
    valLE (u ++ [d]) = valLE u + d * 10 ^ u.length := by
  induction u with
  | nil =>
    simp [valLE]
  | cons x xs ih =>
    simp only [List.cons_append, valLE_cons, ih, List.length_cons]
    ring

theorem val10_reverse (l : List Nat) : val10 l = valLE l.reverse := by
  induction l with
  | nil => rfl
  | cons d t ih =>
    rw [val10_cons, List.reverse_cons, valLE_append_singleton,
      List.length_reverse, ih]
    ring

theorem val10_lt_pow (l : List Nat) (h : ∀ d ∈ l, d < 10) :
    val10 l < 10 ^ l.length := by
  induction l with
  | nil => simp [val10, ofDigitsBE]
  | cons d t ih =>
    rw [val10_cons]
    have hd : d < 10 := h d (by simp)
    have ht := ih (fun x hx => h x (by simp [hx]))
    have h1 : d * 10 ^ t.length ≤ 9 * 10 ^ t.length :=
      Nat.mul_le_mul_right _ (by omega)
    have h2 : (10 : Nat) ^ (d :: t).length = 10 * 10 ^ t.length := by
      rw [List.length_cons, Nat.pow_succ]
      ring
    omega

theorem val10_ge_pow (l : List Nat) (hne : l ≠ []) (hh : l.head? ≠ some 0) :
    10 ^ (l.length - 1) ≤ val10 l := by
  match l with
  | d :: t =>
    rw [val10_cons]
    have hd : 1 ≤ d := by
      match d with
      | 0 => simp at hh
      | e + 1 => omega
    have h1 : 10 ^ t.length ≤ d * 10 ^ t.length :=
      Nat.le_mul_of_pos_left _ (by omega)
    simp only [List.length_cons, Nat.add_sub_cancel]
    omega

theorem canon_eq_zero_of_val (l : List Nat) (hc : Canon l) (hv : val10 l = 0) :
    l = [0] := by
  obtain ⟨hne, hd, hz⟩ := hc
  rcases hz with hz | hz
  · exfalso
    have h1 := val10_ge_pow l hne hz
    have h2 : 0 < 10 ^ (l.length - 1) := Nat.pos_pow_of_pos _ (by norm_num)
    omega
  · exact hz

theorem canon_val_pos (l : List Nat) (hc : Canon l) (hl : l ≠ [0]) :
    1 ≤ val10 l := by
  by_contra h
  exact hl (canon_eq_zero_of_val l hc (by omega))

theorem canon_single_of_val_lt (l : List Nat) (hc : Canon l)
    (hv : val10 l < 10) : l = [val10 l] := by
  obtain ⟨hne, hd, hz⟩ := hc
  match l with
  | [d] =>
    rw [show val10 [d] = d from by simp [val10_cons, val10_nil]]
  | d :: e :: t =>
    exfalso
    have hdz : 1 ≤ d := by
      rcases hz with hz | hz
      · match d with
        | 0 => simp at hz
        | f + 1 => omega
      · simp at hz
    have h1 := val10_ge_pow (d :: e :: t) (by simp) (by simp; omega)
    have h2 : (10 : Nat) ^ ((d :: e :: t).length - 1) ≥ 10 := by
      have : (d :: e :: t).length - 1 = t.length + 1 := by simp
      rw [this, Nat.pow_succ]
      have : 1 ≤ 10 ^ t.length := Nat.pos_pow_of_pos _ (by norm_num)
      omega
    omega

theorem decDigits_val (n : Nat) : val10 (decDigits n) = n := by
  unfold decDigits
  by_cases h : n = 0
  · simp [h, val10_cons, val10_nil]
  · rw [if_neg h]
    exact toBaseDigits_val 10 (by norm_num) n

theorem decDigits_canon (n : Nat) : Canon (decDigits n) := by
  unfold decDigits
  by_cases h : n = 0
  · rw [if_pos h]
    exact ⟨by simp, by simp, Or.inr rfl⟩
  · rw [if_neg h]
    exact ⟨toBaseDigits_ne_nil 10 (by norm_num) n h,
      toBaseDigits_lt 10 n,
      Or.inl (toBaseDigits_head_ne_zero 10 (by norm_num) n h)⟩

theorem decDigits_single (n : Nat) (h : n < 10) : decDigits n = [n] := by
  unfold decDigits
  by_cases h0 : n = 0
  · simp [h0]
  · rw [if_neg h0, toBaseDigits]
    have hc : ¬ (n = 0 ∨ 10 < 2) := by omega
    rw [dif_neg hc, Nat.div_eq_of_lt h, Nat.mod_eq_of_lt h, toBaseDigits]
    simp

theorem carryDigitsLE_val (c : Nat) : valLE (carryDigitsLE c) = c := by
  induction c using Nat.strong_induction_on with
  | _ c ih =>
    rw [carryDigitsLE]
    by_cases h : c = 0
    · simp [h, valLE]
    · rw [dif_neg h, valLE_cons, ih (c / 10) (Nat.div_lt_self (by omega) (by norm_num))]
      omega

theorem carryDigitsLE_lt (c : Nat) : ∀ d ∈ carryDigitsLE c, d < 10 := by
  induction c using Nat.strong_induction_on with
  | _ c ih =>
    rw [carryDigitsLE]
    by_cases h : c = 0
    · simp [h]
    · rw [dif_neg h]
      intro d hd
      rcases List.mem_cons.1 hd with hd1 | hd2
      · subst hd1
        exact Nat.mod_lt _ (by norm_num)
      · exact ih (c / 10) (Nat.div_lt_self (by omega) (by norm_num)) d hd2

theorem carryDigitsLE_getLast (c : Nat) :
    (carryDigitsLE c).getLast? ≠ some 0 := by
  induction c using Nat.strong_induction_on with
  | _ c ih =>
    rw [carryDigitsLE]
    by_cases h : c = 0
    · simp [h]
    · rw [dif_neg h]
      by_cases hq : c / 10 = 0
      · have hlt : c < 10 := by omega
        rw [carryDigitsLE]
        simp [hq, Nat.mod_eq_of_lt hlt, h]
      · have hih := ih (c / 10) (Nat.div_lt_self (by omega) (by norm_num))
        have hne : carryDigitsLE (c / 10) ≠ [] := by
          rw [carryDigitsLE]
          simp [hq]
        rcases List.exists_cons_of_ne_nil hne with ⟨a, t, hat⟩
        rw [hat] at hih ⊢
        simpa using hih

/-! ### Correctness of bigAdd -/

theorem valLE_eq_zero (l : List Nat) (h : valLE l = 0) : ∀ d ∈ l, d = 0 := by
  induction l with
  | nil => simp
  | cons x xs ih =>
    rw [valLE_cons] at h
    intro d hd
    rcases List.mem_cons.1 hd with hd1 | hd2
    · omega
    · exact ih (by omega) d hd2

theorem addLoop_val (x y : List Nat) (c : Nat) :
    valLE (addLoop x y c) = valLE x + valLE y + c := by
  induction x generalizing y c with
  | nil =>
    induction y generalizing c with
    | nil =>
      rw [addLoop, carryDigitsLE_val]
      have h0 : valLE ([] : List Nat) = 0 := rfl
      omega
    | cons y ys ihy =>
      rw [addLoop, valLE_cons, ihy ((y + c) / 10)]
      have h0 : valLE ([] : List Nat) = 0 := rfl
      have h1 := valLE_cons y ys
      omega
  | cons x xs ihx =>
    cases y with
    | nil =>
      rw [addLoop, valLE_cons, ihx [] ((x + c) / 10)]
      have h0 : valLE ([] : List Nat) = 0 := rfl
      have h1 := valLE_cons x xs
      omega
    | cons y ys =>
      rw [addLoop, valLE_cons, ihx ys ((x + y + c) / 10)]
      have h1 := valLE_cons x xs
      have h2 := valLE_cons y ys
      omega

theorem addLoop_lt (x y : List Nat) (c : Nat) :
    ∀ d ∈ addLoop x y c, d < 10 := by
  induction x generalizing y c with
  | nil =>
    induction y generalizing c with
    | nil =>
      intro d hd
      rw [addLoop] at hd
      exact carryDigitsLE_lt c d hd
    | cons y ys ihy =>
      intro d hd
      rw [addLoop] at hd
      rcases List.mem_cons.1 hd with hd1 | hd2
      · subst hd1
        exact Nat.mod_lt _ (by norm_num)
      · exact ihy _ d hd2
  | cons x xs ihx =>
    cases y with
    | nil =>
      intro d hd
      rw [addLoop] at hd
      rcases List.mem_cons.1 hd with hd1 | hd2
      · subst hd1
        exact Nat.mod_lt _ (by norm_num)
      · exact ihx [] _ d hd2
    | cons y ys =>
      intro d hd
      rw [addLoop] at hd
      rcases List.mem_cons.1 hd with hd1 | hd2
      · subst hd1
        exact Nat.mod_lt _ (by norm_num)
      · exact ihx ys _ d hd2

theorem addLoop_ne_nil (x y : List Nat) (c : Nat)
    (h : x ≠ [] ∨ y ≠ [] ∨ c ≠ 0) : addLoop x y c ≠ [] := by
  match x, y with
  | [], [] =>
    have hc : c ≠ 0 := by tauto
    rw [addLoop, carryDigitsLE]
    simp [hc]
  | [], y :: ys => rw [addLoop]; simp
  | x :: xs, [] => rw [addLoop]; simp
  | x :: xs, y :: ys => rw [addLoop]; simp

/-- Condition satisfied by the little-endian form of a canonical number:
a trailing zero digit only for the single-digit string `"0"`. -/
def LEok (l : List Nat) : Prop := l.getLast? = some 0 → l.length ≤ 1

theorem lEok_tail (x : Nat) (xs : List Nat) (h : LEok (x :: xs)) : LEok xs := by
  intro hlast
  cases xs with
  | nil => simp
  | cons e t =>
    exfalso
    have h2 : (x :: e :: t).getLast? = some 0 := by
      rw [List.getLast?_cons_cons]
      exact hlast
    have := h h2
    simp at this

theorem lEok_tail_strong (x : Nat) (xs : List Nat) (h : LEok (x :: xs)) :
    xs.getLast? = some 0 → xs = [] := by
  intro hlast
  cases xs with
  | nil => rfl
  | cons e t =>
    exfalso
    have h2 : (x :: e :: t).getLast? = some 0 := by
      rw [List.getLast?_cons_cons]
      exact hlast
    have := h h2
    simp at this

theorem all_zero_getLast : ∀ (l : List Nat), l ≠ [] → (∀ d ∈ l, d = 0) →
    l.getLast? = some 0
  | [], hne, _ => absurd rfl hne
  | [a], _, h => by simp [h a (by simp)]
  | a :: b :: u, _, h => by
    rw [List.getLast?_cons_cons]
    exact all_zero_getLast (b :: u) (by simp) (fun d hd => h d (by simp [hd]))

theorem addLoop_getLast_aux (n : Nat) : ∀ (x y : List Nat) (c : Nat),
    x.length + y.length ≤ n → LEok x → LEok y → LEok (addLoop x y c) := by
  induction n with
  | zero =>
    intro x y c hlen hx hy
    have hxe : x = [] := by
      cases x with
      | nil => rfl
      | cons a t => simp at hlen
    have hye : y = [] := by
      cases y with
      | nil => rfl
      | cons a t =>
        subst hxe
        simp at hlen
    subst hxe
    subst hye
    intro hlast
    rw [addLoop] at hlast
    exact absurd hlast (carryDigitsLE_getLast c)
  | succ n ih =>
    intro x y c hlen hx hy
    cases x with
    | nil =>
      cases y with
      | nil =>
        intro hlast
        rw [addLoop] at hlast
        exact absurd hlast (carryDigitsLE_getLast c)
      | cons yh yt =>
        -- addLoop [] (yh :: yt) c = digit :: addLoop [] yt c2
        intro hlast
        rw [addLoop] at hlast ⊢
        cases hr : addLoop [] yt ((yh + c) / 10) with
        | nil => simp
        | cons e t =>
          exfalso
          rw [hr, List.getLast?_cons_cons] at hlast
          have hlast2 : (addLoop [] yt ((yh + c) / 10)).getLast? = some 0 := by
            rw [hr]
            exact hlast
          have hlen2 := ih [] yt ((yh + c) / 10) (by simp at hlen ⊢; omega)
            (by intro h; simp) (lEok_tail yh yt hy) hlast2
          rw [hr] at hlen2
          have ht : t = [] := by
            cases t with
            | nil => rfl
            | cons u v => simp at hlen2
          subst ht
          have he : e = 0 := by
            simpa using hlast
          subst he
          have hv := addLoop_val [] yt ((yh + c) / 10)
          rw [hr] at hv
          have h0 : valLE ([] : List Nat) = 0 := rfl
          have h01 : valLE [0] = 0 := rfl
          have hyt0 : valLE yt = 0 := by omega
          have hytne : yt ≠ [] := by
            intro hh
            subst hh
            have hc0 : (yh + c) / 10 = 0 := by omega
            rw [hc0, addLoop, carryDigitsLE] at hr
            simp at hr
          have hlast3 := all_zero_getLast yt hytne (valLE_eq_zero yt hyt0)
          exact hytne (lEok_tail_strong yh yt hy hlast3)
    | cons x xs =>
      -- one step; both shapes of y produce `digit :: addLoop xs y2 c2`
      have hstep : ∃ d c2 y2, addLoop (x :: xs) y c = d :: addLoop xs y2 c2 ∧
          LEok y2 ∧ (y2.getLast? = some 0 → y2 = []) ∧
          xs.length + y2.length ≤ n ∧
          (valLE (addLoop xs y2 c2) = 0 →
            valLE xs = 0 ∧ valLE y2 = 0 ∧ c2 = 0) := by
        cases y with
        | nil =>
          refine ⟨(x + c) % 10, (x + c) / 10, [], by rw [addLoop],
            by intro h; simp, by intro h; rfl, by simp at hlen ⊢; omega, ?_⟩
          intro h0
          have hv := addLoop_val xs [] ((x + c) / 10)
          have hz : valLE ([] : List Nat) = 0 := rfl
          omega
        | cons yh yt =>
          refine ⟨(x + yh + c) % 10, (x + yh + c) / 10, yt, by rw [addLoop],
            lEok_tail yh yt hy, lEok_tail_strong yh yt hy,
            by simp at hlen ⊢; omega, ?_⟩
          intro h0
          have hv := addLoop_val xs yt ((x + yh + c) / 10)
          omega
      obtain ⟨d, c2, y2, heq, hy2, hy2s, hlen2, hval0⟩ := hstep
      intro hlast
      rw [heq] at hlast ⊢
      cases hr : addLoop xs y2 c2 with
      | nil => simp
      | cons e t =>
        exfalso
        rw [hr, List.getLast?_cons_cons] at hlast
        have hlast2 : (addLoop xs y2 c2).getLast? = some 0 := by
          rw [hr]
          exact hlast
        have hlen3 := ih xs y2 c2 hlen2 (lEok_tail x xs hx) hy2 hlast2
        rw [hr] at hlen3
        have ht : t = [] := by
          cases t with
          | nil => rfl
          | cons u v => simp at hlen3
        subst ht
        have he : e = 0 := by
          simpa using hlast
        subst he
        have hv0 : valLE (addLoop xs y2 c2) = 0 := by
          rw [hr]
          rfl
        obtain ⟨hxs0, hy20, hc20⟩ := hval0 hv0
        have hne2 : xs ≠ [] ∨ y2 ≠ [] := by
          by_contra hcon
          push_neg at hcon
          obtain ⟨h1, h2⟩ := hcon
          subst h1
          subst h2
          subst hc20
          rw [addLoop, carryDigitsLE] at hr
          simp at hr
        rcases hne2 with hxsne | hy2ne
        · have hlast3 := all_zero_getLast xs hxsne (valLE_eq_zero xs hxs0)
          exact hxsne (lEok_tail_strong x xs hx hlast3)
        · have hlast3 := all_zero_getLast y2 hy2ne (valLE_eq_zero y2 hy20)
          exact hy2ne (hy2s hlast3)

theorem addLoop_getLast (x y : List Nat) (c : Nat) (hx : LEok x)
    (hy : LEok y) : LEok (addLoop x y c) :=
  addLoop_getLast_aux (x.length + y.length) x y c le_rfl hx hy

theorem canon_LEok_reverse (a : List Nat) (ha : Canon a) : LEok a.reverse := by
  obtain ⟨hne, hd, hz⟩ := ha
  intro hlast
  rw [List.getLast?_reverse] at hlast
  rcases hz with hz | hz
  · exact absurd hlast hz
  · subst hz
    simp

theorem bigAdd_val (a b : List Nat) : val10 (bigAdd a b) = val10 a + val10 b := by
  unfold bigAdd
  rw [val10_reverse, List.reverse_reverse, addLoop_val, ← val10_reverse,
    ← val10_reverse]
  omega

theorem bigAdd_canon (a b : List Nat) (ha : Canon a) (hb : Canon b) :
    Canon (bigAdd a b) := by
  have hne : addLoop a.reverse b.reverse 0 ≠ [] :=
    addLoop_ne_nil _ _ _ (Or.inl (by simpa using ha.1))
  refine ⟨by simpa [bigAdd] using hne, ?_, ?_⟩
  · intro d hd
    unfold bigAdd at hd
    exact addLoop_lt _ _ _ d (List.mem_reverse.1 hd)
  · have hL := addLoop_getLast a.reverse b.reverse 0
      (canon_LEok_reverse a ha) (canon_LEok_reverse b hb)
    unfold bigAdd
    by_cases hlast : (addLoop a.reverse b.reverse 0).getLast? = some 0
    · right
      have hlen := hL hlast
      rcases List.exists_cons_of_ne_nil hne with ⟨e, t, het⟩
      rw [het] at hlen hlast ⊢
      have ht : t = [] := by
        cases t with
        | nil => rfl
        | cons u v => simp at hlen
      subst ht
      have he : e = 0 := by
        simpa using hlast
      subst he
      rfl
    · left
      rw [List.head?_reverse]
      exact hlast

/-! ### Correctness of bigCompare -/

theorem lexCompare_spec : ∀ (a b : List Nat), a.length = b.length →
    (∀ d ∈ a, d < 10) → (∀ d ∈ b, d < 10) →
    lexCompare a b =
      if val10 a < val10 b then -1 else if val10 b < val10 a then 1 else 0
  | [], [], _, _, _ => by simp [lexCompare, val10_nil]
  | [], b :: bs, h, _, _ => by simp at h
  | a :: as0, [], h, _, _ => by simp at h
  | x :: xs, y :: ys, h, hx, hy => by
    have hlen : xs.length = ys.length := by simpa using h
    have hxd : ∀ d ∈ xs, d < 10 := fun d hd => hx d (by simp [hd])
    have hyd : ∀ d ∈ ys, d < 10 := fun d hd => hy d (by simp [hd])
    have hV : val10 xs < 10 ^ xs.length := val10_lt_pow xs hxd
    have hW : val10 ys < 10 ^ ys.length := val10_lt_pow ys hyd
    rw [val10_cons, val10_cons]
    rw [lexCompare]
    by_cases hxy : x < y
    · rw [if_pos hxy]
      have hlt : x * 10 ^ xs.length + val10 xs < y * 10 ^ ys.length + val10 ys := by
        have h1 : x * 10 ^ xs.length + val10 xs < (x + 1) * 10 ^ xs.length := by
          have := Nat.add_one_mul x (10 ^ xs.length)
          omega
        have h2 : (x + 1) * 10 ^ xs.length ≤ y * 10 ^ ys.length := by
          rw [hlen]
          exact Nat.mul_le_mul_right _ (by omega)
        omega
      rw [if_pos hlt]
    · rw [if_neg hxy]
      by_cases hyx : y < x
      · rw [if_pos hyx]
        have hlt : y * 10 ^ ys.length + val10 ys < x * 10 ^ xs.length + val10 xs := by
          have h1 : y * 10 ^ ys.length + val10 ys < (y + 1) * 10 ^ ys.length := by
            have := Nat.add_one_mul y (10 ^ ys.length)
            omega
          have h2 : (y + 1) * 10 ^ ys.length ≤ x * 10 ^ xs.length := by
            rw [hlen]
            exact Nat.mul_le_mul_right _ (by omega)
          omega
        rw [if_neg (by omega), if_pos hlt]
      · rw [if_neg hyx]
        have hxy2 : x = y := by omega
        subst hxy2
        rw [lexCompare_spec xs ys hlen hxd hyd, hlen]
        have e1 : (x * 10 ^ ys.length + val10 xs < x * 10 ^ ys.length + val10 ys)
            ↔ (val10 xs < val10 ys) := by omega
        have e2 : (x * 10 ^ ys.length + val10 ys < x * 10 ^ ys.length + val10 xs)
            ↔ (val10 ys < val10 xs) := by omega
        simp only [e1, e2]

theorem bigCompare_spec (a b : List Nat) (ha : Canon a) (hb : Canon b) :
    bigCompare a b =
      if val10 a < val10 b then -1 else if val10 b < val10 a then 1 else 0 := by
  obtain ⟨hane, had, haz⟩ := ha
  obtain ⟨hbne, hbd, hbz⟩ := hb
  unfold bigCompare
  rcases Nat.lt_trichotomy a.length b.length with hl | hl | hl
  · rw [if_neg (by omega), if_pos hl]
    have hbig : val10 a < val10 b := by
      have h1 : val10 a < 10 ^ a.length := val10_lt_pow a had
      have h2 : 10 ^ (b.length - 1) ≤ val10 b := by
        rcases hbz with hz | hz
        · exact val10_ge_pow b hbne hz
        · exfalso
          subst hz
          have := List.length_pos.2 hane
          rw [List.length_singleton] at hl
          omega
      have h3 : (10 : Nat) ^ a.length ≤ 10 ^ (b.length - 1) :=
        Nat.pow_le_pow_right (by norm_num) (by omega)
      omega
    rw [if_pos hbig]
  · rw [if_neg (by omega), if_neg (by omega)]
    exact lexCompare_spec a b hl had hbd
  · rw [if_pos hl]
    have hbig : val10 b < val10 a := by
      have h1 : val10 b < 10 ^ b.length := val10_lt_pow b hbd
      have h2 : 10 ^ (a.length - 1) ≤ val10 a := by
        rcases haz with hz | hz
        · exact val10_ge_pow a hane hz
        · exfalso
          subst hz
          have := List.length_pos.2 hbne
          rw [List.length_singleton] at hl
          omega
      have h3 : (10 : Nat) ^ b.length ≤ 10 ^ (a.length - 1) :=
        Nat.pow_le_pow_right (by norm_num) (by omega)
      omega
    rw [if_neg (by omega), if_pos hbig]

theorem bigCompare_neg_iff (a b : List Nat) (ha : Canon a) (hb : Canon b) :
    bigCompare a b < 0 ↔ val10 a < val10 b := by
  rw [bigCompare_spec a b ha hb]
  split_ifs with h1 h2
  · simp [h1]
  · simp
    omega
  · simp
    omega

theorem bigCompare_nonneg_iff (a b : List Nat) (ha : Canon a) (hb : Canon b) :
    0 ≤ bigCompare a b ↔ val10 b ≤ val10 a := by
  rw [bigCompare_spec a b ha hb]
  split_ifs with h1 h2
  · simp
    omega
  · simp
    omega
  · simp
    omega

theorem bigCompare_pos_iff (a b : List Nat) (ha : Canon a) (hb : Canon b) :
    0 < bigCompare a b ↔ val10 b < val10 a := by
  rw [bigCompare_spec a b ha hb]
  split_ifs with h1 h2
  · simp
    omega
  · simp
    omega
  · simp
    omega

/-! ### ltrim and bigSub -/

theorem val10_dropWhile_zero (l : List Nat) :
    val10 (l.dropWhile (fun d => d == 0)) = val10 l := by
  induction l with
  | nil => rfl
  | cons d t ih =>
    by_cases hd : d = 0
    · subst hd
      rw [List.dropWhile_cons_of_pos (by simp), ih, val10_cons]
      omega
    · rw [List.dropWhile_cons_of_neg (by simpa using hd)]

theorem dropWhile_zero_head (l : List Nat) :
    (l.dropWhile (fun d => d == 0)).head? ≠ some 0 := by
  induction l with
  | nil => simp
  | cons d t ih =>
    by_cases hd : d = 0
    · subst hd
      rw [List.dropWhile_cons_of_pos (by simp)]
      exact ih
    · rw [List.dropWhile_cons_of_neg (by simpa using hd)]
      simpa using hd

theorem ltrim_val (l : List Nat) : val10 (ltrim l) = val10 l := by
  unfold ltrim
  cases h : l.dropWhile (fun d => d == 0) with
  | nil =>
    have := val10_dropWhile_zero l
    rw [h] at this
    rw [← this]
    rfl
  | cons e t =>
    have := val10_dropWhile_zero l
    rw [h] at this
    exact this

theorem ltrim_canon (l : List Nat) (h : ∀ d ∈ l, d < 10) : Canon (ltrim l) := by
  unfold ltrim
  cases hdw : l.dropWhile (fun d => d == 0) with
  | nil => exact ⟨by simp, by simp, Or.inr rfl⟩
  | cons e t =>
    refine ⟨by simp, ?_, Or.inl ?_⟩
    · intro d hd
      apply h
      have hsub := List.dropWhile_sublist (l := l) (p := fun d => d == 0)
      rw [hdw] at hsub
      exact hsub.mem hd
    · have := dropWhile_zero_head l
      rw [hdw] at this
      exact this

theorem valLE_headD_tail (y : List Nat) :
    valLE y = y.headD 0 + 10 * valLE y.tail := by
  cases y with
  | nil => rfl
  | cons d t => rfl

theorem subLoopLE_spec : ∀ (x y : List Nat) (br : Nat),
    (∀ d ∈ x, d < 10) → (∀ d ∈ y, d < 10) → br ≤ 1 →
    y.length ≤ x.length → valLE y + br ≤ valLE x →
    valLE (subLoopLE x y br) = valLE x - valLE y - br ∧
    (∀ d ∈ subLoopLE x y br, d < 10) := by
  intro x
  induction x with
  | nil =>
    intro y br _ _ _ hlen hval
    have hy : y = [] := by
      cases y with
      | nil => rfl
      | cons a t => simp at hlen
    subst hy
    have h0 : valLE ([] : List Nat) = 0 := rfl
    refine ⟨?_, by simp [subLoopLE]⟩
    rw [subLoopLE]
    omega
  | cons x0 xs ih =>
    intro y br hx hy hbr hlen hval
    have hx0 : x0 < 10 := hx x0 (by simp)
    have hxs : ∀ d ∈ xs, d < 10 := fun d hd => hx d (by simp [hd])
    have hyt : ∀ d ∈ y.tail, d < 10 := fun d hd => hy d (List.mem_of_mem_tail hd)
    have hy0 : y.headD 0 < 10 := by
      cases y with
      | nil => norm_num
      | cons a t => exact hy a (by simp)
    have hytlen : y.tail.length ≤ xs.length := by
      cases y with
      | nil => simp
      | cons a t => simpa using hlen
    have hvy := valLE_headD_tail y
    have hvx := valLE_cons x0 xs
    rw [subLoopLE]
    by_cases hbor : x0 < y.headD 0 + br
    · rw [if_pos hbor]
      have hrec := ih y.tail 1 hxs hyt (by omega) hytlen (by omega)
      refine ⟨?_, ?_⟩
      · rw [valLE_cons, hrec.1]
        omega
      · intro d hd
        rcases List.mem_cons.1 hd with hd1 | hd2
        · omega
        · exact hrec.2 d hd2
    · rw [if_neg hbor]
      have hrec := ih y.tail 0 hxs hyt (by omega) hytlen (by omega)
      refine ⟨?_, ?_⟩
      · rw [valLE_cons, hrec.1]
        omega
      · intro d hd
        rcases List.mem_cons.1 hd with hd1 | hd2
        · omega
        · exact hrec.2 d hd2

theorem bigCompare_length (a b : List Nat) (h : ¬ bigCompare a b < 0) :
    b.length ≤ a.length := by
  by_contra hc
  push_neg at hc
  unfold bigCompare at h
  rw [if_neg (by omega), if_pos hc] at h
  omega

theorem bigSub_val (a b : List Nat) (ha : Canon a) (hb : Canon b) :
    val10 (bigSub a b) = val10 a - val10 b := by
  unfold bigSub
  by_cases hcmp : bigCompare a b < 0
  · rw [if_pos hcmp]
    have := (bigCompare_neg_iff a b ha hb).1 hcmp
    have h0 : val10 [0] = 0 := rfl
    omega
  · rw [if_neg hcmp]
    have hvle : val10 b ≤ val10 a :=
      (bigCompare_nonneg_iff a b ha hb).1 (by omega)
    have hlen : b.reverse.length ≤ a.reverse.length := by
      simpa using bigCompare_length a b hcmp
    have hspec := subLoopLE_spec a.reverse b.reverse 0
      (fun d hd => ha.2.1 d (List.mem_reverse.1 hd))
      (fun d hd => hb.2.1 d (List.mem_reverse.1 hd))
      (by omega) hlen
      (by rw [← val10_reverse, ← val10_reverse]; omega)
    rw [ltrim_val, val10_reverse, List.reverse_reverse, hspec.1,
      ← val10_reverse, ← val10_reverse]
    omega

theorem bigSub_canon (a b : List Nat) (ha : Canon a) (hb : Canon b) :
    Canon (bigSub a b) := by
  unfold bigSub
  by_cases hcmp : bigCompare a b < 0
  · rw [if_pos hcmp]
    exact ⟨by simp, by simp, Or.inr rfl⟩
  · rw [if_neg hcmp]
    apply ltrim_canon
    intro d hd
    have hvle : val10 b ≤ val10 a :=
      (bigCompare_nonneg_iff a b ha hb).1 (by omega)
    have hlen : b.reverse.length ≤ a.reverse.length := by
      simpa using bigCompare_length a b hcmp
    have hspec := subLoopLE_spec a.reverse b.reverse 0
      (fun e he => ha.2.1 e (List.mem_reverse.1 he))
      (fun e he => hb.2.1 e (List.mem_reverse.1 he))
      (by omega) hlen
      (by rw [← val10_reverse, ← val10_reverse]; omega)
    exact hspec.2 d (List.mem_reverse.1 hd)

/-! ### Correctness of bigMul -/

theorem getD_set_self (l : List Nat) (p v : Nat) (hp : p < l.length) :
    (l.set p v).getD p 0 = v := by
  rw [List.getD_eq_getElem?_getD, List.getElem?_set_self (by simpa using hp)]
  rfl

theorem getD_set_ne (l : List Nat) (p q v : Nat) (h : p ≠ q) :
    (l.set p v).getD q 0 = l.getD q 0 := by
  rw [List.getD_eq_getElem?_getD, List.getElem?_set_ne h,
    ← List.getD_eq_getElem?_getD]

theorem val10_set (arr : List Nat) : ∀ (p : Nat), p < arr.length → ∀ (v : Nat),
    val10 (arr.set p v) + arr.getD p 0 * 10 ^ (arr.length - 1 - p) =
      val10 arr + v * 10 ^ (arr.length - 1 - p) := by
  induction arr with
  | nil =>
    intro p hp
    simp at hp
  | cons a t ih =>
    intro p hp v
    cases p with
    | zero =>
      simp only [List.set_cons_zero, List.getD_cons_zero, List.length_cons,
        Nat.add_sub_cancel, Nat.sub_zero]
      rw [val10_cons, val10_cons]
      ring
    | succ p =>
      have hp' : p < t.length := by simpa using hp
      simp only [List.set_cons_succ, List.getD_cons_succ, List.length_cons]
      rw [val10_cons, val10_cons, List.length_set]
      have hih := ih p hp' v
      have he : t.length + 1 - 1 - (p + 1) = t.length - 1 - p := by omega
      rw [he]
      omega

theorem mulStep_length (dA dB p2 : Nat) (arr : List Nat) :
    (mulStep dA dB p2 arr).length = arr.length := by
  unfold mulStep
  simp

theorem mulStep_getD (dA dB p2 : Nat) (arr : List Nat) (hp2 : p2 < arr.length)
    (hp1 : 1 ≤ p2) (q : Nat) :
    (mulStep dA dB p2 arr).getD q 0 =
      if q = p2 then (dA * dB + arr.getD p2 0) % 10
      else if q = p2 - 1 then
        arr.getD (p2 - 1) 0 + (dA * dB + arr.getD p2 0) / 10
      else arr.getD q 0 := by
  unfold mulStep
  by_cases hq2 : q = p2
  · subst hq2
    rw [if_pos rfl, getD_set_ne _ _ _ _ (by omega),
      getD_set_self _ _ _ hp2]
  · rw [if_neg hq2]
    by_cases hq1 : q = p2 - 1
    · subst hq1
      rw [if_pos rfl, getD_set_self _ _ _ (by simpa using by omega),
        getD_set_ne _ _ _ _ (by omega)]
    · rw [if_neg hq1, getD_set_ne _ _ _ _ (by omega),
        getD_set_ne _ _ _ _ (by omega)]

theorem mulStep_val (dA dB p2 : Nat) (arr : List Nat) (hp2 : p2 < arr.length)
    (hp1 : 1 ≤ p2) :
    val10 (mulStep dA dB p2 arr) =
      val10 arr + dA * dB * 10 ^ (arr.length - 1 - p2) := by
  simp only [mulStep]
  have hgne : (arr.set p2 ((dA * dB + arr.getD p2 0) % 10)).getD (p2 - 1) 0 =
      arr.getD (p2 - 1) 0 := getD_set_ne _ _ _ _ (by omega)
  rw [hgne]
  have h1 := val10_set arr p2 hp2 ((dA * dB + arr.getD p2 0) % 10)
  have h2 := val10_set (arr.set p2 ((dA * dB + arr.getD p2 0) % 10)) (p2 - 1)
    (by rw [List.length_set]; omega)
    (arr.getD (p2 - 1) 0 + (dA * dB + arr.getD p2 0) / 10)
  rw [List.length_set, hgne] at h2
  have hw : (10 : Nat) ^ (arr.length - 1 - (p2 - 1)) =
      10 * 10 ^ (arr.length - 1 - p2) := by
    rw [← Nat.pow_succ']
    congr 1
    omega
  rw [hw] at h2
  have hexp : (arr.getD (p2 - 1) 0 + (dA * dB + arr.getD p2 0) / 10) *
      (10 * 10 ^ (arr.length - 1 - p2)) =
      arr.getD (p2 - 1) 0 * (10 * 10 ^ (arr.length - 1 - p2)) +
        (dA * dB + arr.getD p2 0) / 10 * 10 * 10 ^ (arr.length - 1 - p2) := by
    ring
  rw [hexp] at h2
  have hmod : (dA * dB + arr.getD p2 0) % 10 * 10 ^ (arr.length - 1 - p2) +
      (dA * dB + arr.getD p2 0) / 10 * 10 * 10 ^ (arr.length - 1 - p2) =
      (dA * dB + arr.getD p2 0) * 10 ^ (arr.length - 1 - p2) := by
    rw [show (dA * dB + arr.getD p2 0) % 10 * 10 ^ (arr.length - 1 - p2) +
        (dA * dB + arr.getD p2 0) / 10 * 10 * 10 ^ (arr.length - 1 - p2) =
        ((dA * dB + arr.getD p2 0) % 10 +
          (dA * dB + arr.getD p2 0) / 10 * 10) * 10 ^ (arr.length - 1 - p2)
      from by ring]
    rw [Nat.mod_add_div' (dA * dB + arr.getD p2 0) 10]
  have hdist : (dA * dB + arr.getD p2 0) * 10 ^ (arr.length - 1 - p2) =
      dA * dB * 10 ^ (arr.length - 1 - p2) +
        arr.getD p2 0 * 10 ^ (arr.length - 1 - p2) := by
    ring
  omega

theorem rowLoop_length (dA : Nat) (b : List Nat) (i : Nat) :
    ∀ (cnt : Nat) (arr : List Nat), (rowLoop dA b i cnt arr).length = arr.length := by
  intro cnt
  induction cnt with
  | zero => intro arr; rfl
  | succ cnt ih =>
    intro arr
    rw [rowLoop, ih, mulStep_length]

theorem mulLoop_length (a b : List Nat) :
    ∀ (cnt : Nat) (arr : List Nat), (mulLoop a b cnt arr).length = arr.length := by
  intro cnt
  induction cnt with
  | zero => intro arr; rfl
  | succ cnt ih =>
    intro arr
    rw [mulLoop, ih, rowLoop_length]

theorem getD_eq_getElem (l : List Nat) (p : Nat) (hp : p < l.length) :
    l.getD p 0 = l.get ⟨p, hp⟩ := by
  rw [List.getD_eq_getElem?_getD, List.getElem?_eq_getElem hp]
  rfl

theorem take_succ_getD (b : List Nat) (cnt : Nat) (h : cnt < b.length) :
    b.take (cnt + 1) = b.take cnt ++ [b.getD cnt 0] := by
  rw [List.take_succ, getD_eq_getElem b cnt h]
  simp [List.getElem?_eq_getElem h]

theorem rowLoop_val (dA : Nat) (b : List Nat) :
    ∀ (cnt : Nat) (i : Nat) (arr : List Nat), cnt ≤ b.length →
    i + cnt < arr.length →
    val10 (rowLoop dA b i cnt arr) =
      val10 arr + dA * val10 (b.take cnt) * 10 ^ (arr.length - 1 - (i + cnt)) := by
  intro cnt
  induction cnt with
  | zero =>
    intro i arr _ _
    rw [rowLoop]
    simp [val10_nil]
  | succ cnt ih =>
    intro i arr hcnt hlen
    rw [rowLoop]
    have hlen2 : (mulStep dA (b.getD cnt 0) (i + cnt + 1) arr).length = arr.length :=
      mulStep_length _ _ _ _
    rw [ih i _ (by omega) (by rw [hlen2]; omega), hlen2,
      mulStep_val dA (b.getD cnt 0) (i + cnt + 1) arr (by omega) (by omega)]
    rw [take_succ_getD b cnt (by omega), val10_append_singleton]
    have hw : (10 : Nat) ^ (arr.length - 1 - (i + cnt)) =
        10 * 10 ^ (arr.length - 1 - (i + (cnt + 1))) := by
      rw [← Nat.pow_succ']
      congr 1
      omega
    rw [hw]
    have he : i + cnt + 1 = i + (cnt + 1) := by omega
    rw [he]
    ring

theorem mulLoop_val (a b : List Nat) (_hb1 : 1 ≤ b.length) :
    ∀ (cnt : Nat) (arr : List Nat), cnt ≤ a.length →
    arr.length = a.length + b.length →
    val10 (mulLoop a b cnt arr) =
      val10 arr + val10 (a.take cnt) * val10 b * 10 ^ (a.length - cnt) := by
  intro cnt
  induction cnt with
  | zero =>
    intro arr _ _
    rw [mulLoop]
    simp [val10_nil]
  | succ cnt ih =>
    intro arr hcnt harr
    rw [mulLoop]
    have hrl : (rowLoop (a.getD cnt 0) b cnt b.length arr).length = arr.length :=
      rowLoop_length _ _ _ _ _
    rw [ih _ (by omega) (by rw [hrl]; exact harr),
      rowLoop_val (a.getD cnt 0) b b.length cnt arr (le_refl _) (by omega)]
    rw [List.take_length, take_succ_getD a cnt (by omega), val10_append_singleton]
    have he : arr.length - 1 - (cnt + b.length) = a.length - 1 - cnt := by omega
    rw [he]
    have hw : (10 : Nat) ^ (a.length - cnt) =
        10 * 10 ^ (a.length - (cnt + 1)) := by
      rw [← Nat.pow_succ']
      congr 1
      omega
    have he2 : a.length - 1 - cnt = a.length - (cnt + 1) := by omega
    rw [hw, he2]
    ring

theorem rowLoop_bound (dA : Nat) (hdA : dA ≤ 9) (b : List Nat)
    (hb : ∀ d ∈ b, d < 10) (i : Nat) :
    ∀ (cnt : Nat) (arr : List Nat), 1 ≤ cnt → i + cnt < arr.length →
    (∀ p, p ≤ i → arr.getD p 0 = 0) →
    (∀ p, p ≠ i + cnt → arr.getD p 0 ≤ 9) →
    arr.getD (i + cnt) 0 ≤ 18 →
    (∀ p, p < i → (rowLoop dA b i cnt arr).getD p 0 = 0) ∧
    (∀ p, (rowLoop dA b i cnt arr).getD p 0 ≤ 9) := by
  intro cnt
  induction cnt with
  | zero =>
    intro arr h1
    omega
  | succ cnt ih =>
    intro arr _ hlen hzero hnine h18
    have hbd : b.getD cnt 0 ≤ 9 := by
      by_cases hc : cnt < b.length
      · have := hb (b.get ⟨cnt, hc⟩) (List.get_mem b cnt hc)
        rw [getD_eq_getElem b cnt hc]
        omega
      · rw [List.getD_eq_default _ _ (by omega)]
        norm_num
    have h18' : arr.getD (i + cnt + 1) 0 ≤ 18 := by
      have := h18
      have he : i + (cnt + 1) = i + cnt + 1 := by omega
      rw [he] at this
      exact this
    have hsum : dA * b.getD cnt 0 + arr.getD (i + cnt + 1) 0 ≤ 99 := by
      have : dA * b.getD cnt 0 ≤ 81 := Nat.mul_le_mul hdA hbd
      omega
    have hstep := mulStep_getD dA (b.getD cnt 0) (i + cnt + 1) arr
      (by omega) (by omega)
    rw [rowLoop]
    cases cnt with
    | zero =>
      rw [rowLoop]
      constructor
      · intro p hp
        rw [hstep p, if_neg (by omega), if_neg (by omega)]
        exact hzero p (by omega)
      · intro p
        rw [hstep p]
        by_cases hp2 : p = i + 0 + 1
        · rw [if_pos hp2]
          omega
        · rw [if_neg hp2]
          by_cases hp1 : p = i + 0 + 1 - 1
          · rw [if_pos hp1]
            have hz : arr.getD (i + 0 + 1 - 1) 0 = 0 := hzero _ (by omega)
            rw [hz]
            omega
          · rw [if_neg hp1]
            exact hnine p (by omega)
    | succ cnt' =>
      refine ih _ (by omega) ?_ ?_ ?_ ?_
      · rw [mulStep_length]
        omega
      · intro p hp
        rw [hstep p, if_neg (by omega), if_neg (by omega)]
        exact hzero p hp
      · intro p hp
        rw [hstep p]
        by_cases hp2 : p = i + (cnt' + 1) + 1
        · rw [if_pos hp2]
          omega
        · rw [if_neg hp2, if_neg (by omega)]
          exact hnine p (by omega)
      · rw [hstep _, if_neg (by omega), if_pos (by omega)]
        have : arr.getD (i + (cnt' + 1) + 1 - 1) 0 ≤ 9 := hnine _ (by omega)
        omega

theorem mulLoop_bound (a b : List Nat) (ha : ∀ d ∈ a, d < 10)
    (hb : ∀ d ∈ b, d < 10) (hb1 : 1 ≤ b.length) :
    ∀ (cnt : Nat) (arr : List Nat), cnt ≤ a.length →
    arr.length = a.length + b.length →
    (∀ p, p < cnt → arr.getD p 0 = 0) → (∀ p, arr.getD p 0 ≤ 9) →
    ∀ p, (mulLoop a b cnt arr).getD p 0 ≤ 9 := by
  intro cnt
  induction cnt with
  | zero =>
    intro arr _ _ _ hnine p
    rw [mulLoop]
    exact hnine p
  | succ cnt ih =>
    intro arr hcnt harr hzero hnine p
    rw [mulLoop]
    have hdA : a.getD cnt 0 ≤ 9 := by
      have hc : cnt < a.length := by omega
      have := ha (a.get ⟨cnt, hc⟩) (List.get_mem a cnt hc)
      rw [getD_eq_getElem a cnt hc]
      omega
    have hrow := rowLoop_bound (a.getD cnt 0) hdA b hb cnt b.length arr
      hb1 (by omega)
      (fun q hq => hzero q (by omega))
      (fun q _ => by have := hnine q; omega)
      (by have := hnine (cnt + b.length); omega)
    exact ih _ (by omega) (by rw [rowLoop_length]; exact harr)
      (fun q hq => hrow.1 q hq) hrow.2 p

theorem val10_replicate_zero (n : Nat) : val10 (List.replicate n 0) = 0 := by
  induction n with
  | zero => rfl
  | succ n ih =>
    rw [List.replicate_succ, val10_cons, ih]
    omega

theorem getD_replicate_zero (n p : Nat) : (List.replicate n 0).getD p 0 = 0 := by
  rw [List.getD_eq_getElem?_getD, List.getElem?_replicate]
  by_cases h : p < n
  · simp [h]
  · simp [h]

theorem implodeDigits_id (l : List Nat) (h : ∀ d ∈ l, d < 10) :
    implodeDigits l = l := by
  induction l with
  | nil => rfl
  | cons d t ih =>
    unfold implodeDigits at *
    rw [List.foldr_cons, decDigits_single d (h d (by simp)),
      ih (fun e he => h e (by simp [he]))]
    rfl

theorem mem_of_getD_bound (l : List Nat) (h : ∀ p, l.getD p 0 ≤ 9) :
    ∀ d ∈ l, d < 10 := by
  intro d hd
  rcases List.mem_iff_get.1 hd with ⟨⟨iv, hiv⟩, rfl⟩
  have h2 := h iv
  rw [getD_eq_getElem l iv hiv] at h2
  omega

theorem bigMul_cells_bound (a b : List Nat) (ha : ∀ d ∈ a, d < 10)
    (hb : ∀ d ∈ b, d < 10) (hb1 : 1 ≤ b.length) :
    ∀ d ∈ mulLoop a b a.length (List.replicate (a.length + b.length) 0), d < 10 := by
  apply mem_of_getD_bound
  apply mulLoop_bound a b ha hb hb1 a.length _ (le_refl _) (by simp)
  · intro p _
    exact getD_replicate_zero _ _
  · intro p
    rw [getD_replicate_zero]
    norm_num

theorem bigMul_val (a b : List Nat) (ha : Canon a) (hb : Canon b) :
    val10 (bigMul a b) = val10 a * val10 b := by
  unfold bigMul
  have hb1 : 1 ≤ b.length := List.length_pos.2 hb.1
  rw [implodeDigits_id _ (bigMul_cells_bound a b ha.2.1 hb.2.1 hb1), ltrim_val,
    mulLoop_val a b hb1 a.length _ (le_refl _) (by simp),
    val10_replicate_zero, List.take_length]
  simp

theorem bigMul_canon (a b : List Nat) (ha : Canon a) (hb : Canon b) :
    Canon (bigMul a b) := by
  unfold bigMul
  have hb1 : 1 ≤ b.length := List.length_pos.2 hb.1
  rw [implodeDigits_id _ (bigMul_cells_bound a b ha.2.1 hb.2.1 hb1)]
  exact ltrim_canon _ (bigMul_cells_bound a b ha.2.1 hb.2.1 hb1)

/-! ### Correctness of bigDiv and bigMod -/

theorem val10_zero_digit : val10 [0] = 0 := rfl

theorem canon_zero : Canon [0] := by decide

theorem canon_one : Canon [1] := by decide

theorem canon_two : Canon [2] := by decide

theorem canon_ten : Canon [1, 0] := by decide

theorem val10_ten : val10 [1, 0] = 10 := rfl

theorem subCountLoop_spec (b : List Nat) (hb : Canon b) (hb0 : b ≠ [0]) :
    ∀ (fuel : Nat) (rem : List Nat), Canon rem → val10 rem < fuel →
    Canon (subCountLoop b fuel rem).1 ∧
    val10 (subCountLoop b fuel rem).1 = val10 rem % val10 b ∧
    (subCountLoop b fuel rem).2 = val10 rem / val10 b := by
  have hbpos : 1 ≤ val10 b := canon_val_pos b hb hb0
  intro fuel
  induction fuel with
  | zero =>
    intro rem _ h
    omega
  | succ fuel ih =>
    intro rem hrem hlt
    rw [subCountLoop]
    by_cases hcmp : 0 ≤ bigCompare rem b
    · rw [if_pos hcmp]
      have hge : val10 b ≤ val10 rem := (bigCompare_nonneg_iff rem b hrem hb).1 hcmp
      have hsub := bigSub_val rem b hrem hb
      have hsubc := bigSub_canon rem b hrem hb
      have ihh := ih (bigSub rem b) hsubc (by omega)
      refine ⟨ihh.1, ?_, ?_⟩
      · rw [ihh.2.1, hsub, ← Nat.mod_eq_sub_mod hge]
      · rw [ihh.2.2, hsub, ← Nat.div_eq_sub_div (by omega) hge]
    · rw [if_neg hcmp]
      have hlt2 : val10 rem < val10 b := by
        by_contra hc
        exact hcmp ((bigCompare_nonneg_iff rem b hrem hb).2 (by omega))
      exact ⟨hrem, by rw [Nat.mod_eq_of_lt hlt2],
        by rw [Nat.div_eq_of_lt hlt2]⟩

theorem divLoop_spec (b : List Nat) (hb : Canon b) (hb0 : b ≠ [0]) :
    ∀ (ds res rem : List Nat), (∀ d ∈ ds, d < 10) → Canon rem →
    val10 rem < val10 b → (∀ d ∈ res, d < 10) →
    (∀ d ∈ (divLoop b ds (res, rem)).1, d < 10) ∧
    Canon (divLoop b ds (res, rem)).2 ∧
    val10 (divLoop b ds (res, rem)).2 < val10 b ∧
    val10 (divLoop b ds (res, rem)).1 * val10 b +
        val10 (divLoop b ds (res, rem)).2 =
      (val10 res * val10 b + val10 rem) * 10 ^ ds.length + val10 ds := by
  have hbpos : 1 ≤ val10 b := canon_val_pos b hb hb0
  intro ds
  induction ds with
  | nil =>
    intro res rem hds hrem hlt hres
    rw [divLoop]
    refine ⟨hres, hrem, hlt, ?_⟩
    rw [val10_nil, List.length_nil]
    ring
  | cons d ds ih =>
    intro res rem hds hrem hlt hres
    have hd : d < 10 := hds d (by simp)
    have hrem1c : Canon (bigAdd (bigMul rem [1, 0]) (decDigits d)) :=
      bigAdd_canon _ _ (bigMul_canon rem [1, 0] hrem canon_ten) (decDigits_canon d)
    have hrem1v : val10 (bigAdd (bigMul rem [1, 0]) (decDigits d)) =
        val10 rem * 10 + d := by
      rw [bigAdd_val, bigMul_val rem [1, 0] hrem canon_ten, val10_ten,
        decDigits_val]
    have hsc := subCountLoop_spec b hb hb0
      (val10 (bigAdd (bigMul rem [1, 0]) (decDigits d)) + 1)
      (bigAdd (bigMul rem [1, 0]) (decDigits d)) hrem1c (by omega)
    have hq9 : (subCountLoop b
        (val10 (bigAdd (bigMul rem [1, 0]) (decDigits d)) + 1)
        (bigAdd (bigMul rem [1, 0]) (decDigits d))).2 < 10 := by
      rw [hsc.2.2, Nat.div_lt_iff_lt_mul (by omega), hrem1v]
      omega
    rw [divLoop]
    have hih := ih
      (res ++ decDigits (subCountLoop b
        (val10 (bigAdd (bigMul rem [1, 0]) (decDigits d)) + 1)
        (bigAdd (bigMul rem [1, 0]) (decDigits d))).2)
      ((subCountLoop b
        (val10 (bigAdd (bigMul rem [1, 0]) (decDigits d)) + 1)
        (bigAdd (bigMul rem [1, 0]) (decDigits d))).1)
      (fun e he => hds e (by simp [he]))
      hsc.1
      (by rw [hsc.2.1]; exact Nat.mod_lt _ (by omega))
      (by
        intro e he
        rcases List.mem_append.1 he with he1 | he2
        · exact hres e he1
        · rw [decDigits_single _ hq9] at he2
          simp at he2
          omega)
    refine ⟨hih.1, hih.2.1, hih.2.2.1, ?_⟩
    rw [hih.2.2.2]
    rw [decDigits_single _ hq9, val10_append_singleton, hsc.2.1, hsc.2.2, hrem1v]
    have hdm := Nat.div_add_mod (val10 rem * 10 + d) (val10 b)
    have e1 : (val10 res * 10 + (val10 rem * 10 + d) / val10 b) * val10 b =
        val10 res * val10 b * 10 +
          val10 b * ((val10 rem * 10 + d) / val10 b) := by
      ring
    have e2 : ∀ k : Nat, (val10 res * val10 b + val10 rem) * 10 ^ (k + 1) =
        (val10 res * val10 b * 10 + val10 rem * 10) * 10 ^ k := by
      intro k
      rw [Nat.pow_succ]
      ring
    rw [List.length_cons, e2 ds.length, val10_cons]
    have e3 : ((val10 res * 10 + (val10 rem * 10 + d) / val10 b) * val10 b +
        (val10 rem * 10 + d) % val10 b) =
        (val10 res * val10 b * 10 + val10 rem * 10 + d) := by
      omega
    rw [e3]
    have e4 : d * 10 ^ ds.length + val10 ds = d * 10 ^ ds.length + val10 ds := rfl
    ring

theorem bigDiv_val (a b : List Nat) (ha : Canon a) (hb : Canon b)
    (hb0 : b ≠ [0]) : val10 (bigDiv a b) = val10 a / val10 b := by
  have hbpos : 1 ≤ val10 b := canon_val_pos b hb hb0
  unfold bigDiv
  rw [if_neg hb0]
  by_cases hcmp : bigCompare a b < 0
  · rw [if_pos hcmp, val10_zero_digit]
    have := (bigCompare_neg_iff a b ha hb).1 hcmp
    rw [Nat.div_eq_of_lt this]
  · rw [if_neg hcmp]
    have hdl := divLoop_spec b hb hb0 a [] [0] ha.2.1 canon_zero
      (by rw [val10_zero_digit]; omega) (by simp)
    rw [ltrim_val]
    have hkey := hdl.2.2.2
    rw [val10_nil, val10_zero_digit] at hkey
    simp only [Nat.zero_mul, Nat.add_zero, Nat.zero_add] at hkey
    have hqr := hdl.2.2.1
    rcases Nat.lt_or_ge (val10 a) (val10 b) with hlt | hge
    · exfalso
      exact hcmp ((bigCompare_neg_iff a b ha hb).2 hlt)
    · have h2 : val10 (divLoop b a ([], [0])).2 +
          val10 b * val10 (divLoop b a ([], [0])).1 = val10 a := by
        have e := Nat.mul_comm (val10 (divLoop b a ([], [0])).1) (val10 b)
        omega
      exact ((Nat.div_mod_unique (show 0 < val10 b by omega)).2 ⟨h2, hqr⟩).1.symm

theorem bigDiv_canon (a b : List Nat) (ha : Canon a) (hb : Canon b) :
    Canon (bigDiv a b) := by
  unfold bigDiv
  by_cases hb0 : b = [0]
  · rw [if_pos hb0]
    exact canon_zero
  · rw [if_neg hb0]
    by_cases hcmp : bigCompare a b < 0
    · rw [if_pos hcmp]
      exact canon_zero
    · rw [if_neg hcmp]
      have hbpos : 1 ≤ val10 b := canon_val_pos b hb hb0
      have hdl := divLoop_spec b hb hb0 a [] [0] ha.2.1 canon_zero
        (by rw [val10_zero_digit]; omega) (by simp)
      exact ltrim_canon _ hdl.1

theorem modLoop_spec (b : List Nat) (hb : Canon b) (hb0 : b ≠ [0]) :
    ∀ (ds rem : List Nat), (∀ d ∈ ds, d < 10) → Canon rem →
    val10 rem < val10 b →
    Canon (modLoop b ds rem) ∧
    val10 (modLoop b ds rem) =
      (val10 rem * 10 ^ ds.length + val10 ds) % val10 b := by
  have hbpos : 1 ≤ val10 b := canon_val_pos b hb hb0
  intro ds
  induction ds with
  | nil =>
    intro rem _ hrem hlt
    rw [modLoop]
    refine ⟨hrem, ?_⟩
    rw [val10_nil, List.length_nil]
    simp [Nat.mod_eq_of_lt hlt]
  | cons d ds ih =>
    intro rem hds hrem hlt
    have hd : d < 10 := hds d (by simp)
    have hrem1c : Canon (bigAdd (bigMul rem [1, 0]) (decDigits d)) :=
      bigAdd_canon _ _ (bigMul_canon rem [1, 0] hrem canon_ten) (decDigits_canon d)
    have hrem1v : val10 (bigAdd (bigMul rem [1, 0]) (decDigits d)) =
        val10 rem * 10 + d := by
      rw [bigAdd_val, bigMul_val rem [1, 0] hrem canon_ten, val10_ten,
        decDigits_val]
    have hsc := subCountLoop_spec b hb hb0
      (val10 (bigAdd (bigMul rem [1, 0]) (decDigits d)) + 1)
      (bigAdd (bigMul rem [1, 0]) (decDigits d)) hrem1c (by omega)
    rw [modLoop]
    have hih := ih ((subCountLoop b
        (val10 (bigAdd (bigMul rem [1, 0]) (decDigits d)) + 1)
        (bigAdd (bigMul rem [1, 0]) (decDigits d))).1)
      (fun e he => hds e (by simp [he]))
      hsc.1
      (by rw [hsc.2.1]; exact Nat.mod_lt _ (by omega))
    refine ⟨hih.1, ?_⟩
    rw [hih.2, hsc.2.1, hrem1v]
    have hcong : ((val10 rem * 10 + d) % val10 b * 10 ^ ds.length + val10 ds) ≡
        ((val10 rem * 10 + d) * 10 ^ ds.length + val10 ds) [MOD val10 b] :=
      Nat.ModEq.add_right _ (Nat.ModEq.mul_right _ (Nat.mod_modEq _ _))
    rw [hcong]
    rw [List.length_cons, val10_cons]
    congr 1
    rw [Nat.pow_succ]
    ring

theorem bigMod_val (a b : List Nat) (ha : Canon a) (hb : Canon b)
    (hb0 : b ≠ [0]) : val10 (bigMod a b) = val10 a % val10 b := by
  have hbpos : 1 ≤ val10 b := canon_val_pos b hb hb0
  unfold bigMod
  rw [if_neg hb0]
  have hml := modLoop_spec b hb hb0 a [0] ha.2.1 canon_zero
    (by rw [val10_zero_digit]; omega)
  rw [hml.2, val10_zero_digit]
  simp

theorem bigMod_canon (a b : List Nat) (ha : Canon a) (hb : Canon b) :
    Canon (bigMod a b) := by
  unfold bigMod
  by_cases hb0 : b = [0]
  · rw [if_pos hb0]
    exact canon_zero
  · rw [if_neg hb0]
    have hbpos : 1 ≤ val10 b := canon_val_pos b hb hb0
    exact (modLoop_spec b hb hb0 a [0] ha.2.1 canon_zero
      (by rw [val10_zero_digit]; omega)).1

/-! ### Correctness of bigPow and the shifts -/

theorem powLoop_spec (base : List Nat) (hbase : Canon base) (k : Nat) :
    Canon (powLoop base k) ∧ val10 (powLoop base k) = val10 base ^ k := by
  induction k with
  | zero =>
    refine ⟨canon_one, ?_⟩
    rfl
  | succ k ih =>
    rw [powLoop]
    refine ⟨bigMul_canon _ _ ih.1 hbase, ?_⟩
    rw [bigMul_val _ _ ih.1 hbase, ih.2, Nat.pow_succ]

theorem bigPow_val (base exp : List Nat) (hbase : Canon base)
    (_hexp : Canon exp) : val10 (bigPow base exp) = val10 base ^ val10 exp := by
  unfold bigPow
  by_cases h0 : exp = [0]
  · rw [if_pos h0, h0, val10_zero_digit]
    rfl
  · rw [if_neg h0]
    exact (powLoop_spec base hbase _).2

theorem bigPow_canon (base exp : List Nat) (hbase : Canon base) :
    Canon (bigPow base exp) := by
  unfold bigPow
  by_cases h0 : exp = [0]
  · rw [if_pos h0]
    exact canon_one
  · rw [if_neg h0]
    exact (powLoop_spec base hbase _).1

theorem canon_ne_zero_list (l : List Nat) (h : val10 l ≠ 0) : l ≠ [0] := by
  intro hc
  subst hc
  exact h val10_zero_digit

theorem bigPow_two_val (bits : Nat) :
    val10 (bigPow [2] (decDigits bits)) = 2 ^ bits := by
  rw [bigPow_val [2] _ canon_two (decDigits_canon bits), decDigits_val]
  rfl

theorem bigLeftShift_val (a : List Nat) (bits : Nat) (ha : Canon a) :
    val10 (bigLeftShift a bits) = val10 a * 2 ^ bits := by
  unfold bigLeftShift
  rw [bigMul_val a _ ha (bigPow_canon [2] _ canon_two), bigPow_two_val]

theorem bigLeftShift_canon (a : List Nat) (bits : Nat) (ha : Canon a) :
    Canon (bigLeftShift a bits) :=
  bigMul_canon a _ ha (bigPow_canon [2] _ canon_two)

theorem bigRightShift_val (a : List Nat) (bits : Nat) (ha : Canon a) :
    val10 (bigRightShift a bits) = val10 a / 2 ^ bits := by
  unfold bigRightShift
  rw [bigDiv_val a _ ha (bigPow_canon [2] _ canon_two)
    (canon_ne_zero_list _ (by
      rw [bigPow_two_val]
      exact Nat.pos_iff_ne_zero.1 (Nat.pos_pow_of_pos bits (by norm_num)))),
    bigPow_two_val]

theorem bigRightShift_canon (a : List Nat) (bits : Nat) (ha : Canon a) :
    Canon (bigRightShift a bits) :=
  bigDiv_canon a _ ha (bigPow_canon [2] _ canon_two)

/-! ### Correctness of decToBin, binToDec, bigAnd, bigXor -/

theorem ofDigitsBE_lt_pow (radix : Nat) (l : List Nat)
    (h : ∀ d ∈ l, d < radix) : ofDigitsBE radix l < radix ^ l.length := by
  induction l with
  | nil => simp [ofDigitsBE]
  | cons d t ih =>
    rw [ofDigitsBE_cons]
    have hd : d < radix := h d (by simp)
    have ht := ih (fun x hx => h x (by simp [hx]))
    have h1 : d * radix ^ t.length ≤ (radix - 1) * radix ^ t.length :=
      Nat.mul_le_mul_right _ (by omega)
    have h2 : radix ^ (d :: t).length = radix * radix ^ t.length := by
      rw [List.length_cons, Nat.pow_succ]
      ring
    have h3 : (radix - 1) * radix ^ t.length + radix ^ t.length =
        radix * radix ^ t.length := by
      rw [Nat.sub_one_mul]
      have : radix ^ t.length ≤ radix * radix ^ t.length :=
        Nat.le_mul_of_pos_left _ (by omega)
      omega
    omega

theorem ofDigitsBE_replicate_zero_append (radix k : Nat) (l : List Nat) :
    ofDigitsBE radix (List.replicate k 0 ++ l) = ofDigitsBE radix l := by
  induction k with
  | zero => rfl
  | succ k ih =>
    rw [List.replicate_succ, List.cons_append, ofDigitsBE_cons, ih]
    omega

theorem binLoop_spec (fuel : Nat) : ∀ (dec : List Nat), Canon dec →
    val10 dec < fuel → binLoop fuel dec = toBaseDigits 2 (val10 dec) := by
  induction fuel with
  | zero =>
    intro dec _ h
    omega
  | succ fuel ih =>
    intro dec hdec hlt
    rw [binLoop]
    have hpos := bigCompare_pos_iff dec [0] hdec canon_zero
    rw [val10_zero_digit] at hpos
    by_cases hc : 0 < bigCompare dec [0]
    · rw [if_pos hc]
      have hv : 0 < val10 dec := hpos.1 hc
      have hdc := bigDiv_canon dec [2] hdec canon_two
      have hdv : val10 (bigDiv dec [2]) = val10 dec / 2 := by
        rw [bigDiv_val dec [2] hdec canon_two (by simp)]
        rfl
      have hmc := bigMod_canon dec [2] hdec canon_two
      have hmv : val10 (bigMod dec [2]) = val10 dec % 2 := by
        rw [bigMod_val dec [2] hdec canon_two (by simp)]
        rfl
      have hmod2 : val10 (bigMod dec [2]) < 10 := by
        rw [hmv]
        omega
      rw [ih (bigDiv dec [2]) hdc (by rw [hdv]; omega), hdv,
        canon_single_of_val_lt _ hmc hmod2, hmv]
      conv_rhs => rw [toBaseDigits]
      have hcnd : ¬ (val10 dec = 0 ∨ 2 < 2) := by omega
      rw [dif_neg hcnd]
    · rw [if_neg hc]
      have hv : val10 dec = 0 := by
        by_contra hnz
        exact hc (hpos.2 (by omega))
      rw [hv, toBaseDigits]
      simp

theorem decToBin_spec (dec : List Nat) (hdec : Canon dec) :
    decToBin dec =
      if val10 dec = 0 then [0] else toBaseDigits 2 (val10 dec) := by
  unfold decToBin
  by_cases h0 : dec = [0]
  · rw [if_pos h0, h0, val10_zero_digit, if_pos rfl]
  · rw [if_neg h0]
    have hv : 1 ≤ val10 dec := canon_val_pos dec hdec h0
    rw [binLoop_spec (val10 dec + 1) dec hdec (by omega)]
    have hne := toBaseDigits_ne_nil 2 (le_refl 2) (val10 dec) (by omega)
    rw [if_neg (by omega)]
    cases hbd : toBaseDigits 2 (val10 dec) with
    | nil => exact absurd hbd hne
    | cons e t => rfl

theorem decToBin_bits (dec : List Nat) (hdec : Canon dec) :
    (∀ d ∈ decToBin dec, d < 2) ∧
    ofDigitsBE 2 (decToBin dec) = val10 dec := by
  rw [decToBin_spec dec hdec]
  by_cases h0 : val10 dec = 0
  · rw [if_pos h0, h0]
    exact ⟨by simp, rfl⟩
  · rw [if_neg h0]
    exact ⟨toBaseDigits_lt 2 _, toBaseDigits_val 2 (le_refl 2) _⟩

theorem binToDec_fold (bin : List Nat) :
    Canon (bin.foldr
      (fun bit s => (if bit = 1 then bigAdd s.1 s.2 else s.1, bigMul s.2 [2]))
      ([0], [1])).1 ∧
    Canon (bin.foldr
      (fun bit s => (if bit = 1 then bigAdd s.1 s.2 else s.1, bigMul s.2 [2]))
      ([0], [1])).2 ∧
    val10 (bin.foldr
      (fun bit s => (if bit = 1 then bigAdd s.1 s.2 else s.1, bigMul s.2 [2]))
      ([0], [1])).2 = 2 ^ bin.length ∧
    val10 (bin.foldr
      (fun bit s => (if bit = 1 then bigAdd s.1 s.2 else s.1, bigMul s.2 [2]))
      ([0], [1])).1 =
      ofDigitsBE 2 (bin.map (fun b => if b = 1 then 1 else 0)) := by
  induction bin with
  | nil =>
    refine ⟨canon_zero, canon_one, by rfl, by rfl⟩
  | cons b rest ih =>
    obtain ⟨ih1, ih2, ih3, ih4⟩ := ih
    rw [List.foldr_cons]
    constructor
    · by_cases hb : b = 1
      · rw [if_pos hb]
        exact bigAdd_canon _ _ ih1 ih2
      · rw [if_neg hb]
        exact ih1
    refine ⟨bigMul_canon _ _ ih2 canon_two, ?_, ?_⟩
    · rw [bigMul_val _ _ ih2 canon_two, ih3]
      have : val10 [2] = 2 := rfl
      rw [this, List.length_cons, Nat.pow_succ]
    · rw [List.map_cons, ofDigitsBE_cons, List.length_map]
      by_cases hb : b = 1
      · rw [if_pos hb, if_pos hb, bigAdd_val, ih4, ih3]
        omega
      · rw [if_neg hb, if_neg hb, ih4]
        omega

theorem bit_testBit_and (x y k : Nat) (hx : x ≤ 1) (hy : y ≤ 1) :
    (if x = 1 ∧ y = 1 then (1 : Nat) else 0).testBit k =
      (x.testBit k && y.testBit k) := by
  interval_cases x <;> interval_cases y <;> simp [Nat.zero_testBit]

theorem bit_testBit_xor (x y k : Nat) (hx : x ≤ 1) (hy : y ≤ 1) :
    (if x ≠ y then (1 : Nat) else 0).testBit k =
      (x.testBit k != y.testBit k) := by
  interval_cases x <;> interval_cases y <;> simp [Nat.zero_testBit]

theorem land_step (x y U V n : Nat) (hx : x ≤ 1) (hy : y ≤ 1)
    (hU : U < 2 ^ n) (hV : V < 2 ^ n) :
    (2 ^ n * x + U) &&& (2 ^ n * y + V) =
      2 ^ n * (if x = 1 ∧ y = 1 then 1 else 0) + (U &&& V) := by
  apply Nat.eq_of_testBit_eq
  intro i
  rw [Nat.testBit_and, Nat.testBit_mul_pow_two_add x hU i,
    Nat.testBit_mul_pow_two_add y hV i,
    Nat.testBit_mul_pow_two_add _ (Nat.and_lt_two_pow U hV) i]
  by_cases hi : i < n
  · simp [hi, Nat.testBit_and]
  · simp only [hi, if_false]
    exact (bit_testBit_and x y (i - n) hx hy).symm

theorem lxor_step (x y U V n : Nat) (hx : x ≤ 1) (hy : y ≤ 1)
    (hU : U < 2 ^ n) (hV : V < 2 ^ n) :
    (2 ^ n * x + U) ^^^ (2 ^ n * y + V) =
      2 ^ n * (if x ≠ y then 1 else 0) + (U ^^^ V) := by
  apply Nat.eq_of_testBit_eq
  intro i
  rw [Nat.testBit_xor, Nat.testBit_mul_pow_two_add x hU i,
    Nat.testBit_mul_pow_two_add y hV i,
    Nat.testBit_mul_pow_two_add _ (Nat.xor_lt_two_pow hU hV) i]
  by_cases hi : i < n
  · simp [hi, Nat.testBit_xor]
  · simp only [hi, if_false]
    exact (bit_testBit_xor x y (i - n) hx hy).symm

theorem zip_and_val : ∀ (u v : List Nat), u.length = v.length →
    (∀ d ∈ u, d ≤ 1) → (∀ d ∈ v, d ≤ 1) →
    ofDigitsBE 2 (List.zipWith (fun x y => if x = 1 ∧ y = 1 then 1 else 0) u v) =
      ofDigitsBE 2 u &&& ofDigitsBE 2 v
  | [], [], _, _, _ => by simp [ofDigitsBE]
  | [], v :: vs, h, _, _ => by simp at h
  | u :: us, [], h, _, _ => by simp at h
  | x :: us, y :: vs, h, hu, hv => by
    have hlen : us.length = vs.length := by simpa using h
    have hus : ∀ d ∈ us, d ≤ 1 := fun d hd => hu d (by simp [hd])
    have hvs : ∀ d ∈ vs, d ≤ 1 := fun d hd => hv d (by simp [hd])
    have hU : ofDigitsBE 2 us < 2 ^ us.length :=
      ofDigitsBE_lt_pow 2 us (fun d hd => by have := hus d hd; omega)
    have hV : ofDigitsBE 2 vs < 2 ^ us.length := by
      rw [hlen]
      exact ofDigitsBE_lt_pow 2 vs (fun d hd => by have := hvs d hd; omega)
    rw [List.zipWith_cons_cons, ofDigitsBE_cons, ofDigitsBE_cons, ofDigitsBE_cons,
      List.length_zipWith, hlen, Nat.min_self, ← hlen,
      zip_and_val us vs hlen hus hvs]
    rw [Nat.mul_comm x, Nat.mul_comm y,
      Nat.mul_comm (if x = 1 ∧ y = 1 then 1 else 0),
      land_step x y _ _ us.length (hu x (by simp)) (hv y (by simp)) hU hV]

theorem zip_xor_val : ∀ (u v : List Nat), u.length = v.length →
    (∀ d ∈ u, d ≤ 1) → (∀ d ∈ v, d ≤ 1) →
    ofDigitsBE 2 (List.zipWith (fun x y => if x ≠ y then 1 else 0) u v) =
      ofDigitsBE 2 u ^^^ ofDigitsBE 2 v
  | [], [], _, _, _ => by simp [ofDigitsBE]
  | [], v :: vs, h, _, _ => by simp at h
  | u :: us, [], h, _, _ => by simp at h
  | x :: us, y :: vs, h, hu, hv => by
    have hlen : us.length = vs.length := by simpa using h
    have hus : ∀ d ∈ us, d ≤ 1 := fun d hd => hu d (by simp [hd])
    have hvs : ∀ d ∈ vs, d ≤ 1 := fun d hd => hv d (by simp [hd])
    have hU : ofDigitsBE 2 us < 2 ^ us.length :=
      ofDigitsBE_lt_pow 2 us (fun d hd => by have := hus d hd; omega)
    have hV : ofDigitsBE 2 vs < 2 ^ us.length := by
      rw [hlen]
      exact ofDigitsBE_lt_pow 2 vs (fun d hd => by have := hvs d hd; omega)
    rw [List.zipWith_cons_cons, ofDigitsBE_cons, ofDigitsBE_cons, ofDigitsBE_cons,
      List.length_zipWith, hlen, Nat.min_self, ← hlen,
      zip_xor_val us vs hlen hus hvs]
    rw [Nat.mul_comm x, Nat.mul_comm y,
      Nat.mul_comm (if x ≠ y then 1 else 0),
      lxor_step x y _ _ us.length (hu x (by simp)) (hv y (by simp)) hU hV]

theorem zipWith_le_one (f : Nat → Nat → Nat) (hf : ∀ x y, f x y ≤ 1) :
    ∀ (u v : List Nat), ∀ d ∈ List.zipWith f u v, d ≤ 1 := by
  intro u
  induction u with
  | nil => intro v d hd; simp at hd
  | cons x us ih =>
    intro v d hd
    cases v with
    | nil => simp at hd
    | cons y vs =>
      rw [List.zipWith_cons_cons] at hd
      rcases List.mem_cons.1 hd with hd1 | hd2
      · subst hd1
        exact hf x y
      · exact ih vs d hd2

theorem map_bit_id (l : List Nat) (h : ∀ d ∈ l, d ≤ 1) :
    l.map (fun b => if b = 1 then 1 else 0) = l := by
  induction l with
  | nil => rfl
  | cons d t ih =>
    rw [List.map_cons, ih (fun e he => h e (by simp [he]))]
    have hd := h d (by simp)
    interval_cases d <;> simp

theorem binToDec_val (bin : List Nat) (h : ∀ d ∈ bin, d ≤ 1) :
    Canon (binToDec bin) ∧ val10 (binToDec bin) = ofDigitsBE 2 bin := by
  unfold binToDec
  have hf := binToDec_fold bin
  exact ⟨hf.1, by rw [hf.2.2.2, map_bit_id bin h]⟩

theorem padded_bits (k : Nat) (l : List Nat) (h : ∀ d ∈ l, d ≤ 1) :
    ∀ d ∈ List.replicate k 0 ++ l, d ≤ 1 := by
  intro d hd
  rcases List.mem_append.1 hd with hd1 | hd2
  · have := List.eq_of_mem_replicate hd1
    omega
  · exact h d hd2

theorem bigAnd_spec (a b : List Nat) (ha : Canon a) (hb : Canon b) :
    Canon (bigAnd a b) ∧ val10 (bigAnd a b) = val10 a &&& val10 b := by
  have hA := decToBin_bits a ha
  have hB := decToBin_bits b hb
  have hA1 : ∀ d ∈ decToBin a, d ≤ 1 := fun d hd => by have := hA.1 d hd; omega
  have hB1 : ∀ d ∈ decToBin b, d ≤ 1 := fun d hd => by have := hB.1 d hd; omega
  simp only [bigAnd]
  have hlenA : (decToBin a).length ≤ max (decToBin a).length (decToBin b).length :=
    le_max_left _ _
  have hlenB : (decToBin b).length ≤ max (decToBin a).length (decToBin b).length :=
    le_max_right _ _
  have hplen : (List.replicate
        (max (decToBin a).length (decToBin b).length - (decToBin a).length) 0 ++
      decToBin a).length =
      (List.replicate
        (max (decToBin a).length (decToBin b).length - (decToBin b).length) 0 ++
      decToBin b).length := by
    simp only [List.length_append, List.length_replicate]
    omega
  have hpa := padded_bits
    (max (decToBin a).length (decToBin b).length - (decToBin a).length) _ hA1
  have hpb := padded_bits
    (max (decToBin a).length (decToBin b).length - (decToBin b).length) _ hB1
  have hzip := zip_and_val _ _ hplen hpa hpb
  rw [ofDigitsBE_replicate_zero_append, ofDigitsBE_replicate_zero_append,
    hA.2, hB.2] at hzip
  have hbits := zipWith_le_one (fun x y => if x = 1 ∧ y = 1 then 1 else 0)
    (fun x y => by by_cases h : x = 1 ∧ y = 1 <;> simp [h])
    (List.replicate
      (max (decToBin a).length (decToBin b).length - (decToBin a).length) 0 ++
      decToBin a)
    (List.replicate
      (max (decToBin a).length (decToBin b).length - (decToBin b).length) 0 ++
      decToBin b)
  have hbtd := binToDec_val _ hbits
  exact ⟨hbtd.1, by rw [hbtd.2, hzip]⟩

theorem bigXor_spec (a b : List Nat) (ha : Canon a) (hb : Canon b) :
    Canon (bigXor a b) ∧ val10 (bigXor a b) = val10 a ^^^ val10 b := by
  have hA := decToBin_bits a ha
  have hB := decToBin_bits b hb
  have hA1 : ∀ d ∈ decToBin a, d ≤ 1 := fun d hd => by have := hA.1 d hd; omega
  have hB1 : ∀ d ∈ decToBin b, d ≤ 1 := fun d hd => by have := hB.1 d hd; omega
  simp only [bigXor]
  have hplen : (List.replicate
        (max (decToBin a).length (decToBin b).length - (decToBin a).length) 0 ++
      decToBin a).length =
      (List.replicate
        (max (decToBin a).length (decToBin b).length - (decToBin b).length) 0 ++
      decToBin b).length := by
    simp only [List.length_append, List.length_replicate]
    have := le_max_left (decToBin a).length (decToBin b).length
    have := le_max_right (decToBin a).length (decToBin b).length
    omega
  have hpa := padded_bits
    (max (decToBin a).length (decToBin b).length - (decToBin a).length) _ hA1
  have hpb := padded_bits
    (max (decToBin a).length (decToBin b).length - (decToBin b).length) _ hB1
  have hzip := zip_xor_val _ _ hplen hpa hpb
  rw [ofDigitsBE_replicate_zero_append, ofDigitsBE_replicate_zero_append,
    hA.2, hB.2] at hzip
  have hbits := zipWith_le_one (fun x y => if x ≠ y then 1 else 0)
    (fun x y => by by_cases h : x = y <;> simp [h])
    (List.replicate
      (max (decToBin a).length (decToBin b).length - (decToBin a).length) 0 ++
      decToBin a)
    (List.replicate
      (max (decToBin a).length (decToBin b).length - (decToBin b).length) 0 ++
      decToBin b)
  have hbtd := binToDec_val _ hbits
  exact ⟨hbtd.1, by rw [hbtd.2, hzip]⟩

theorem phpRandom_fold_canon (bytes : List Nat) :
    ∀ acc : List Nat, Canon acc →
    Canon (bytes.foldl
      (fun v byte => bigAdd (bigMul v [2, 5, 6]) (decDigits byte)) acc) := by
  induction bytes with
  | nil => intro acc hacc; simpa using hacc
  | cons byte rest ih =>
    intro acc hacc
    rw [List.foldl_cons]
    exact ih _ (bigAdd_canon _ _
      (bigMul_canon acc [2, 5, 6] hacc (by decide)) (decDigits_canon byte))

theorem phpGenerateRandomBits_lt (bytes : List Nat) (bits : Nat) :
    val10 (phpGenerateRandomBits bytes bits) < 2 ^ bits := by
  have hvc : Canon (bytes.foldl
      (fun v byte => bigAdd (bigMul v [2, 5, 6]) (decDigits byte)) [0]) :=
    phpRandom_fold_canon bytes [0] canon_zero
  have hv2c : Canon (if bits % 8 ≠ 0 then
      bigRightShift (bytes.foldl
        (fun v byte => bigAdd (bigMul v [2, 5, 6]) (decDigits byte)) [0])
        (8 - bits % 8)
      else bytes.foldl
        (fun v byte => bigAdd (bigMul v [2, 5, 6]) (decDigits byte)) [0]) := by
    split
    · exact bigRightShift_canon _ _ hvc
    · exact hvc
  have hmc : Canon (bigSub (bigPow [2] (decDigits bits)) [1]) :=
    bigSub_canon _ _ (bigPow_canon [2] _ canon_two) canon_one
  have h1 : val10 [1] = 1 := rfl
  have hms : val10 (bigSub (bigPow [2] (decDigits bits)) [1]) = 2 ^ bits - 1 := by
    rw [bigSub_val _ _ (bigPow_canon [2] _ canon_two) canon_one,
      bigPow_two_val, h1]
  simp only [phpGenerateRandomBits]
  rw [(bigAnd_spec _ _ hv2c hmc).2, hms]
  have hpos : 0 < 2 ^ bits := Nat.pos_pow_of_pos bits (by norm_num)
  exact lt_of_le_of_lt Nat.and_le_right (by omega)

/-! ### PHP `toBase` / `fromBase` over the decimal-string substrate -/

/-- PHP `toBase` digit loop: `while (bigCompare(n, '0') > 0)` take the
remainder and quotient of `n` by the radix and push the remainder's
character.  The source's `while` is unbounded; the explicit fuel only
bounds the iteration count and is chosen large enough in `phpToBase`
(the loop runs at most `val10 num` times, since the value strictly
decreases). -/
def phpToBaseLoop (alphabet : List Char) (radixD : List Nat) :
    Nat → List Nat → List Char → List Char
  | 0, _, acc => acc
  | fuel + 1, n, acc =>
    if 0 < bigCompare n [0] then
      phpToBaseLoop alphabet radixD fuel (bigDiv n radixD)
        (alphabet.getD (val10 (bigMod n radixD)) ' ' :: acc)
    else acc

/-- PHP `toBase`: the zero value becomes the first alphabet character
repeated `max(minLength, 1)` times; otherwise divide-and-collect
remainders, then left-pad with the first alphabet character. -/
def phpToBase (alphabet : List Char) (num : List Nat) (minLength : Nat) :
    List Char :=
  if num = [0] then
    List.replicate (max minLength 1) (alphabet.headD ' ')
  else
    let result := phpToBaseLoop alphabet (decDigits alphabet.length)
      (val10 num + 1) num []
    List.replicate (minLength - result.length) (alphabet.headD ' ') ++ result

/-- PHP `fromBase` loop: `result = bigAdd(bigMul(result, radix), value)`,
failing on the first character absent from `BASE_MAP`. -/
def phpFromBaseAux (alphabet : List Char) (radixD : List Nat)
    (acc : List Nat) : List Char → Except String (List Nat)
  | [] => .ok acc
  | c :: rest =>
    match idxOf? alphabet c with
    | none => .error ("Invalid character in encoded string: " ++ c.toString)
    | some v =>
      phpFromBaseAux alphabet radixD (bigAdd (bigMul acc radixD) (decDigits v))
        rest

/-- PHP `fromBase`, starting from the decimal string `'0'`. -/
def phpFromBase (alphabet : List Char) (str : List Char) :
    Except String (List Nat) :=
  phpFromBaseAux alphabet (decDigits alphabet.length) [0] str

theorem phpToBaseLoop_spec (alphabet : List Char) (hr : 2 ≤ alphabet.length) :
    ∀ (fuel : Nat) (n : List Nat) (acc : List Char), Canon n → val10 n < fuel →
    phpToBaseLoop alphabet (decDigits alphabet.length) fuel n acc =
      (toBaseDigits alphabet.length (val10 n)).map
        (fun d => alphabet.getD d ' ') ++ acc := by
  intro fuel
  induction fuel with
  | zero => intro n acc _ h; omega
  | succ fuel ih =>
    intro n acc hn hf
    have hrdC : Canon (decDigits alphabet.length) := decDigits_canon _
    have hrdv : val10 (decDigits alphabet.length) = alphabet.length :=
      decDigits_val _
    have hrd0 : decDigits alphabet.length ≠ [0] :=
      canon_ne_zero_list _ (by rw [hrdv]; omega)
    have hz : val10 [0] = 0 := rfl
    by_cases h0 : val10 n = 0
    · have hcmp : ¬ 0 < bigCompare n [0] := by
        rw [bigCompare_pos_iff n [0] hn canon_zero, hz]
        omega
      rw [phpToBaseLoop, if_neg hcmp, toBaseDigits]
      simp [h0]
    · have hcmp : 0 < bigCompare n [0] := by
        rw [bigCompare_pos_iff n [0] hn canon_zero, hz]
        omega
      have hdivC : Canon (bigDiv n (decDigits alphabet.length)) :=
        bigDiv_canon n _ hn hrdC
      have hdivV : val10 (bigDiv n (decDigits alphabet.length)) =
          val10 n / alphabet.length := by
        rw [bigDiv_val n _ hn hrdC hrd0, hrdv]
      have hmodV : val10 (bigMod n (decDigits alphabet.length)) =
          val10 n % alphabet.length := by
        rw [bigMod_val n _ hn hrdC hrd0, hrdv]
      have hdec : val10 n / alphabet.length < val10 n :=
        Nat.div_lt_self (Nat.pos_of_ne_zero h0) (by omega)
      rw [phpToBaseLoop, if_pos hcmp,
        ih _ _ hdivC (by rw [hdivV]; omega), hdivV, hmodV]
      have hexp : toBaseDigits alphabet.length (val10 n) =
          toBaseDigits alphabet.length (val10 n / alphabet.length) ++
            [val10 n % alphabet.length] := by
        conv_lhs => rw [toBaseDigits]
        rw [dif_neg (show ¬ (val10 n = 0 ∨ alphabet.length < 2) by omega)]
      rw [hexp, List.map_append]
      simp

theorem phpToBase_eq (alphabet : List Char) (hr : 2 ≤ alphabet.length)
    (num : List Nat) (hnum : Canon num) (minLength : Nat) :
    phpToBase alphabet num minLength = toBase alphabet (val10 num) minLength := by
  unfold phpToBase toBase
  by_cases h0 : num = [0]
  · rw [if_pos h0, h0, if_pos (show val10 [0] = 0 from rfl)]
    have : max minLength 1 = if minLength = 0 then 1 else minLength := by
      by_cases hm : minLength = 0
      · simp [hm]
      · rw [if_neg hm, Nat.max_eq_left (by omega)]
    rw [this]
  · have hv0 : val10 num ≠ 0 := fun h => h0 (canon_eq_zero_of_val num hnum h)
    rw [if_neg h0, if_neg hv0]
    rw [phpToBaseLoop_spec alphabet hr _ num [] hnum (by omega)]
    simp

theorem phpFromBaseAux_spec (alphabet : List Char) :
    ∀ (str : List Char) (acc : List Nat), Canon acc →
    (phpFromBaseAux alphabet (decDigits alphabet.length) acc str).map val10 =
      fromBaseAux alphabet alphabet.length (val10 acc) str := by
  intro str
  induction str with
  | nil => intro acc _; rfl
  | cons c rest ih =>
    intro acc hacc
    rw [phpFromBaseAux, fromBaseAux]
    cases hidx : idxOf? alphabet c with
    | none => rfl
    | some v =>
      have haccC : Canon (bigAdd (bigMul acc (decDigits alphabet.length))
          (decDigits v)) :=
        bigAdd_canon _ _ (bigMul_canon acc _ hacc (decDigits_canon _))
          (decDigits_canon v)
      have hval : val10 (bigAdd (bigMul acc (decDigits alphabet.length))
          (decDigits v)) = val10 acc * alphabet.length + v := by
        rw [bigAdd_val, bigMul_val acc _ hacc (decDigits_canon _),
          decDigits_val, decDigits_val]
      rw [ih _ haccC, hval]

theorem phpFromBase_toBase (alphabet : List Char) (hr : 2 ≤ alphabet.length)
    (hnd : alphabet.Nodup) (num : List Nat) (hnum : Canon num)
    (minLength : Nat) :
    (phpFromBase alphabet (phpToBase alphabet num minLength)).map val10 =
      .ok (val10 num) := by
  rw [phpToBase_eq alphabet hr num hnum minLength]
  unfold phpFromBase
  rw [phpFromBaseAux_spec alphabet _ [0] canon_zero]
  exact fromBase_toBase alphabet hr hnd (val10 num) minLength

/-! ### Error behaviour of the constructor and of decode -/

theorem idxOf?_eq_none_iff (l : List Char) (c : Char) :
    idxOf? l c = none ↔ c ∉ l := by
  induction l with
  | nil => simp [idxOf?]
  | cons a rest ih =>
    rw [idxOf?]
    by_cases h : a = c
    · simp [h]
    · simp only [if_neg h, List.mem_cons]
      rw [Option.map_eq_none', ih]
      constructor
      · intro hn hmem
        rcases hmem with h1 | h2
        · exact h h1.symm
        · exact hn h2
      · intro hn
        exact fun hm => hn (Or.inr hm)

theorem fromBaseAux_first_invalid (alphabet : List Char) (radix : Nat) :
    ∀ (id : List Char) (acc : Nat), (∃ c ∈ id, c ∉ alphabet) →
    ∃ c, c ∈ id ∧ c ∉ alphabet ∧
      fromBaseAux alphabet radix acc id =
        .error ("Invalid character in encoded string: " ++ c.toString) := by
  intro id
  induction id with
  | nil => intro acc h; simp at h
  | cons c rest ih =>
    intro acc h
    cases hidx : idxOf? alphabet c with
    | none =>
      refine ⟨c, by simp, (idxOf?_eq_none_iff alphabet c).1 hidx, ?_⟩
      rw [fromBaseAux, hidx]
    | some v =>
      have hcmem : c ∈ alphabet := by
        by_contra hc
        rw [← idxOf?_eq_none_iff alphabet c] at hc
        rw [hidx] at hc
        exact Option.noConfusion hc
      obtain ⟨d, hd, hdn⟩ := h
      rcases List.mem_cons.1 hd with h1 | h2
      · subst h1
        exact absurd hcmem hdn
      · obtain ⟨e, he, hen, heq⟩ := ih (acc * radix + v) ⟨d, h2, hdn⟩
        refine ⟨e, by simp [he], hen, ?_⟩
        rw [fromBaseAux, hidx]
        exact heq

theorem decode_first_invalid (cfg : Config) (id : List Char)
    (h : ∃ c ∈ id, c ∉ cfg.baseAlphabet) :
    ∃ c, c ∈ id ∧ c ∉ cfg.baseAlphabet ∧
      decode cfg id =
        .error ("Invalid character in encoded string: " ++ c.toString) := by
  obtain ⟨c, hc, hcn, heq⟩ :=
    fromBaseAux_first_invalid cfg.baseAlphabet cfg.baseAlphabet.length id 0 h
  refine ⟨c, hc, hcn, ?_⟩
  unfold decode fromBase
  rw [heq]

theorem mkNFUID_error_of_bad (alphabet : List Char) (tb rb : Int)
    (h : (∃ c ∈ alphabet, c.toNat < 0x21 ∨ 0x7E < c.toNat) ∨ alphabet = [] ∨
      ' ' ∈ alphabet ∨ ¬ alphabet.Nodup ∨ tb < 0 ∨ 63 < tb ∨ rb < 6 + tb) :
    ∃ e, mkNFUID alphabet tb rb = .error e := by
  unfold mkNFUID
  by_cases h1 : ¬ (alphabet ≠ [] ∧ ∀ c ∈ alphabet,
      0x21 ≤ c.toNat ∧ c.toNat ≤ 0x7E) ∨ ' ' ∈ alphabet
  · rw [if_pos h1]
    exact ⟨_, rfl⟩
  · rw [if_neg h1]
    push_neg at h1
    obtain ⟨⟨hne, hprint⟩, hsp⟩ := h1
    have hbad : ¬ alphabet.Nodup ∨ tb < 0 ∨ 63 < tb ∨ rb < 6 + tb := by
      rcases h with hc | hnil | hspc | hrest
      · obtain ⟨c, hcm, hcr⟩ := hc
        have := hprint c hcm
        omega
      · exact absurd hnil hne
      · exact absurd hspc hsp
      · exact hrest
    by_cases h2 : ¬ alphabet.Nodup
    · rw [if_pos h2]
      exact ⟨_, rfl⟩
    · rw [if_neg h2]
      by_cases h3 : tb < 0 ∨ 63 < tb
      · rw [if_pos h3]
        exact ⟨_, rfl⟩
      · rw [if_neg h3]
        have h4 : rb < 6 + tb := by tauto
        rw [if_pos h4]
        exact ⟨_, rfl⟩

theorem mkNFUID_ok_valid (alphabet : List Char) (tb rb : Int) (cfg : Config)
    (h : mkNFUID alphabet tb rb = .ok cfg) :
    cfg.baseAlphabet = alphabet ∧ alphabet ≠ [] ∧
      (∀ c ∈ alphabet, 0x21 ≤ c.toNat ∧ c.toNat ≤ 0x7E) ∧ ' ' ∉ alphabet ∧
      alphabet.Nodup ∧ cfg.timestampBits = tb.toNat ∧ 0 ≤ tb ∧ tb ≤ 63 ∧
      cfg.randomBits = rb.toNat ∧ 6 + tb ≤ rb := by
  unfold mkNFUID at h
  by_cases h1 : ¬ (alphabet ≠ [] ∧ ∀ c ∈ alphabet,
      0x21 ≤ c.toNat ∧ c.toNat ≤ 0x7E) ∨ ' ' ∈ alphabet
  · rw [if_pos h1] at h
    exact Except.noConfusion h
  · rw [if_neg h1] at h
    push_neg at h1
    obtain ⟨⟨hne, hprint⟩, hsp⟩ := h1
    by_cases h2 : ¬ alphabet.Nodup
    · rw [if_pos h2] at h
      exact Except.noConfusion h
    · rw [if_neg h2] at h
      by_cases h3 : tb < 0 ∨ 63 < tb
      · rw [if_pos h3] at h
        exact Except.noConfusion h
      · rw [if_neg h3] at h
        by_cases h4 : rb < 6 + tb
        · rw [if_pos h4] at h
          exact Except.noConfusion h
        · rw [if_neg h4] at h
          injection h with hc
          subst hc
          push_neg at h2
          refine ⟨rfl, hne, hprint, hsp, h2, rfl, ?_, ?_, rfl, ?_⟩ <;> omega

theorem fromBaseAux_ok_of_valid (alphabet : List Char) (radix : Nat) :
    ∀ (id : List Char) (acc : Nat), (∀ c ∈ id, c ∈ alphabet) →
    ∃ v, fromBaseAux alphabet radix acc id = .ok v := by
  intro id
  induction id with
  | nil => intro acc _; exact ⟨acc, rfl⟩
  | cons c rest ih =>
    intro acc h
    have hc : c ∈ alphabet := h c (by simp)
    cases hidx : idxOf? alphabet c with
    | none => exact absurd hc ((idxOf?_eq_none_iff alphabet c).1 hidx)
    | some v =>
      obtain ⟨w, hw⟩ := ih (acc * radix + v) (fun d hd => h d (by simp [hd]))
      refine ⟨w, ?_⟩
      rw [fromBaseAux, hidx]
      exact hw

/-- Decimal-digit alphabet used by the concrete witnesses. -/
def digits10 : List Char :=
  ['0', '1', '2', '3', '4', '5', '6', '7', '8', '9']

/-! ### The claims -/

/-- Claim C1: for every valid configuration, decoding a generated
identifier with the same instance recovers `timestampLength` equal to the
configured `timestampBits`, `randomLength` equal to the configured
`randomBits`, and (when `timestampBits > 0`) the timestamp equal to the
clock value of the `generate` call masked to its low `timestampBits`
bits. -/
theorem nfuid_C1_roundtrip (cfg : Config) (hv : ValidConfig cfg) (now : Nat)
    (bytes : List Nat) :
    ∃ r : DecodeResult, decode cfg (generate cfg now bytes) = .ok r ∧
      r.timestampLength = cfg.timestampBits ∧
      r.randomLength = (cfg.randomBits : Int) ∧
      (0 < cfg.timestampBits → r.timestamp = now % 2 ^ cfg.timestampBits) := by
  refine ⟨_, decode_generate cfg hv now bytes, rfl, rfl, fun h => ?_⟩
  simp [h]

theorem nfuid_C1_roundtrip_witness :
    ∃ r : DecodeResult,
      decode { baseAlphabet := digits10, timestampBits := 8, randomBits := 16 }
          (generate
            { baseAlphabet := digits10, timestampBits := 8, randomBits := 16 }
            1700000000 [171, 205, 18]) = .ok r ∧
        r.timestampLength = 8 ∧ r.randomLength = (16 : Int) ∧
        (0 < 8 → r.timestamp = 1700000000 % 2 ^ 8) :=
  nfuid_C1_roundtrip
    { baseAlphabet := digits10, timestampBits := 8, randomBits := 16 }
    (by decide) 1700000000 [171, 205, 18]

/-- Claim C2, counterexample: on the valid two-character alphabet
`"01"` the input `"1"` converts to the integer 1, decode's width
arithmetic gives `randomBitsLength = 0 - 6 - 0 = -6 < 0`, and decode
returns an ordinary record carrying that negative `randomLength` instead
of failing. -/
theorem nfuid_C2_counterexample :
    decode { baseAlphabet := ['0', '1'], timestampBits := 0, randomBits := 6 }
        ['1'] =
      .ok { timestampLength := 0, timestamp := 0, randomLength := -6,
            random := ['0'], formattedTimestamp := none, binary := [] } ∧
    (-6 : Int) < 0 := by
  constructor
  · have h0 : toBaseDigits 2 0 = [] := by
      rw [toBaseDigits]
      simp
    have h1 : jsNatToString 2 1 = ['1'] := by
      unfold jsNatToString
      rw [if_neg (by norm_num), toBaseDigits]
      norm_num [h0]
      decide
    have hfb : fromBase ['0', '1'] ['1'] = .ok 1 := rfl
    rw [decode_of_fromBase_ok
      { baseAlphabet := ['0', '1'], timestampBits := 0, randomBits := 6 }
      ['1'] 1 hfb]
    have h2 : decodeFull 1 =
        { timestampLength := 0, timestamp := 0, randomLength := -6,
          random := ['0'], formattedTimestamp := none, binary := [] } := by
      simp only [decodeFull, h1]
      norm_num [shrI, andI, jsNatToString]
    rw [h2]
  · norm_num

/-- Claim C2, amended: decode never surfaces an error for a negative
`randomBitsLength`.  Once every character of the input is in the
alphabet, decode always returns a record — the width arithmetic is not
checked, and (per the counterexample) the record can carry a negative
`randomLength`. -/
theorem nfuid_C2_decode_total (cfg : Config) (id : List Char)
    (h : ∀ c ∈ id, c ∈ cfg.baseAlphabet) :
    ∃ r : DecodeResult, decode cfg id = .ok r := by
  obtain ⟨v, hv⟩ :=
    fromBaseAux_ok_of_valid cfg.baseAlphabet cfg.baseAlphabet.length id 0 h
  refine ⟨decodeFull v, ?_⟩
  unfold decode fromBase
  rw [hv]

theorem nfuid_C2_decode_total_witness :
    ∃ r : DecodeResult,
      decode { baseAlphabet := ['0', '1'], timestampBits := 0, randomBits := 6 }
        ['1'] = .ok r :=
  nfuid_C2_decode_total
    { baseAlphabet := ['0', '1'], timestampBits := 0, randomBits := 6 }
    ['1'] (by decide)

/-- Claim C3: decode depends only on the input string and the alphabet.
Two instances sharing the alphabet but configured with different
`timestampLength`/`entropyLength` decode every string identically (and the
embedding of `decode` as a pure function is itself the no-I/O, no-side-
effect reading of the source). -/
theorem nfuid_C3_decode_config_independent (alphabet : List Char)
    (tb₁ rb₁ tb₂ rb₂ : Nat) (id : List Char) :
    decode (Config.mk alphabet tb₁ rb₁) id =
      decode (Config.mk alphabet tb₂ rb₂) id := rfl

/-- Claim C4: for a fixed valid configuration every `generate()` output
has the same length
`ceil((1 + 6 + timestampBits + randomBits) / log2 |alphabet|)`, the
ceiling read in exact real arithmetic. -/
theorem nfuid_C4_generate_length (cfg : Config) (hv : ValidConfig cfg)
    (now : Nat) (bytes : List Nat) :
    (generate cfg now bytes).length =
      ⌈(totalBits cfg : ℝ) / Real.logb 2 (cfg.baseAlphabet.length : ℝ)⌉₊ := by
  rw [generate_length cfg hv now bytes, clog_eq_ceil_logb _ _ hv.1]

theorem nfuid_C4_generate_length_witness :
    (generate (Config.mk digits10 8 16) 1700000000 [171, 205, 18]).length =
      ⌈(totalBits (Config.mk digits10 8 16) : ℝ) /
        Real.logb 2 ((digits10.length : Nat) : ℝ)⌉₊ :=
  nfuid_C4_generate_length (Config.mk digits10 8 16) (by decide) 1700000000
    [171, 205, 18]

/-- Claim C5: on canonical decimal-digit operands every substrate
operation agrees with unbounded-integer semantics — `bigAdd` is addition,
`bigMul` multiplication, `bigDiv`/`bigMod` floor quotient and remainder
for nonzero divisors, the shifts multiply/divide by `2^n`, `bigAnd`/
`bigXor` are bitwise AND/XOR, `bigCompare` the numeric order, `bigPow`
exponentiation, and `bigSub` is subtraction clamped to zero. -/
theorem nfuid_C5_substrate_semantics (a b : List Nat) (n : Nat)
    (ha : Canon a) (hb : Canon b) :
    val10 (bigAdd a b) = val10 a + val10 b ∧
    val10 (bigMul a b) = val10 a * val10 b ∧
    (val10 b ≠ 0 → val10 (bigDiv a b) = val10 a / val10 b) ∧
    (val10 b ≠ 0 → val10 (bigMod a b) = val10 a % val10 b) ∧
    val10 (bigLeftShift a n) = val10 a * 2 ^ n ∧
    val10 (bigRightShift a n) = val10 a / 2 ^ n ∧
    val10 (bigAnd a b) = val10 a &&& val10 b ∧
    val10 (bigXor a b) = val10 a ^^^ val10 b ∧
    (bigCompare a b < 0 ↔ val10 a < val10 b) ∧
    (bigCompare a b = 0 ↔ val10 a = val10 b) ∧
    (0 < bigCompare a b ↔ val10 b < val10 a) ∧
    val10 (bigPow a b) = val10 a ^ val10 b ∧
    (val10 b ≤ val10 a → val10 (bigSub a b) = val10 a - val10 b) ∧
    (val10 a < val10 b → val10 (bigSub a b) = 0) := by
  refine ⟨bigAdd_val a b, bigMul_val a b ha hb, ?_, ?_,
    bigLeftShift_val a n ha, bigRightShift_val a n ha,
    (bigAnd_spec a b ha hb).2, (bigXor_spec a b ha hb).2,
    bigCompare_neg_iff a b ha hb, ?_, bigCompare_pos_iff a b ha hb,
    bigPow_val a b ha hb, ?_, ?_⟩
  · intro hv
    exact bigDiv_val a b ha hb (canon_ne_zero_list b hv)
  · intro hv
    exact bigMod_val a b ha hb (canon_ne_zero_list b hv)
  · rw [bigCompare_spec a b ha hb]
    split_ifs with h1 h2
    · constructor
      · intro h
        exact absurd h (by decide)
      · intro h
        omega
    · constructor
      · intro h
        exact absurd h (by decide)
      · intro h
        omega
    · constructor
      · intro h
        omega
      · intro h
        rfl
  · intro _
    exact bigSub_val a b ha hb
  · intro hlt
    rw [bigSub_val a b ha hb]
    omega

theorem nfuid_C5_substrate_semantics_witness :
    val10 (bigAdd [1, 2] [5]) = val10 [1, 2] + val10 [5] ∧
    val10 (bigMul [1, 2] [5]) = val10 [1, 2] * val10 [5] ∧
    (val10 [5] ≠ 0 → val10 (bigDiv [1, 2] [5]) = val10 [1, 2] / val10 [5]) ∧
    (val10 [5] ≠ 0 → val10 (bigMod [1, 2] [5]) = val10 [1, 2] % val10 [5]) ∧
    val10 (bigLeftShift [1, 2] 3) = val10 [1, 2] * 2 ^ 3 ∧
    val10 (bigRightShift [1, 2] 3) = val10 [1, 2] / 2 ^ 3 ∧
    val10 (bigAnd [1, 2] [5]) = val10 [1, 2] &&& val10 [5] ∧
    val10 (bigXor [1, 2] [5]) = val10 [1, 2] ^^^ val10 [5] ∧
    (bigCompare [1, 2] [5] < 0 ↔ val10 [1, 2] < val10 [5]) ∧
    (bigCompare [1, 2] [5] = 0 ↔ val10 [1, 2] = val10 [5]) ∧
    (0 < bigCompare [1, 2] [5] ↔ val10 [5] < val10 [1, 2]) ∧
    val10 (bigPow [1, 2] [5]) = val10 [1, 2] ^ val10 [5] ∧
    (val10 [5] ≤ val10 [1, 2] →
      val10 (bigSub [1, 2] [5]) = val10 [1, 2] - val10 [5]) ∧
    (val10 [1, 2] < val10 [5] → val10 (bigSub [1, 2] [5]) = 0) :=
  nfuid_C5_substrate_semantics [1, 2] [5] 3 (by decide) (by decide)

/-- Claim C6, counterexample: `bigDiv('5','0')` and `bigMod('5','0')`
return the decimal string `'0'` — the guard `if ($b === '0') return '0';`
silently yields a value instead of failing with a division-by-zero
error. -/
theorem nfuid_C6_counterexample :
    bigDiv [5] [0] = [0] ∧ bigMod [5] [0] = [0] := ⟨rfl, rfl⟩

/-- Claim C6, amended: for every dividend, division and modulus by the
zero string do not fail — both return the zero string `'0'`. -/
theorem nfuid_C6_divmod_zero_returns_zero (a : List Nat) :
    bigDiv a [0] = [0] ∧ bigMod a [0] = [0] := by
  constructor
  · unfold bigDiv
    rw [if_pos rfl]
  · unfold bigMod
    rw [if_pos rfl]

/-- Claim C7: the constructor rejects (with an error) every alphabet with
a non-printable-ASCII character, a space, or a duplicate, every
`timestampLength` outside `[0, 63]`, and every
`entropyLength < timestampLength + 6`; a constructed instance always
carries a fully validated configuration; and decode of a string with a
character outside the alphabet fails with the invalid-character error
naming that character. -/
theorem nfuid_C7_validation (alphabet : List Char) (tb rb : Int)
    (cfg : Config) (id : List Char) :
    (((∃ c ∈ alphabet, c.toNat < 0x21 ∨ 0x7E < c.toNat) ∨ alphabet = [] ∨
        ' ' ∈ alphabet ∨ ¬ alphabet.Nodup ∨ tb < 0 ∨ 63 < tb ∨ rb < 6 + tb) →
      ∃ e, mkNFUID alphabet tb rb = .error e) ∧
    (mkNFUID alphabet tb rb = .ok cfg →
      cfg.baseAlphabet = alphabet ∧ alphabet ≠ [] ∧
        (∀ c ∈ alphabet, 0x21 ≤ c.toNat ∧ c.toNat ≤ 0x7E) ∧ ' ' ∉ alphabet ∧
        alphabet.Nodup ∧ cfg.timestampBits = tb.toNat ∧ 0 ≤ tb ∧ tb ≤ 63 ∧
        cfg.randomBits = rb.toNat ∧ 6 + tb ≤ rb) ∧
    ((∃ c ∈ id, c ∉ cfg.baseAlphabet) →
      ∃ c, c ∈ id ∧ c ∉ cfg.baseAlphabet ∧
        decode cfg id =
          .error ("Invalid character in encoded string: " ++ c.toString)) :=
  ⟨mkNFUID_error_of_bad alphabet tb rb, mkNFUID_ok_valid alphabet tb rb cfg,
    decode_first_invalid cfg id⟩

theorem nfuid_C7_validation_witness :
    (∃ e, mkNFUID [' '] 32 96 = .error e) ∧
    (∃ c, c ∈ ['2'] ∧
      c ∉ (Config.mk ['0', '1'] 0 6).baseAlphabet ∧
      decode (Config.mk ['0', '1'] 0 6) ['2'] =
        .error ("Invalid character in encoded string: " ++ c.toString)) :=
  ⟨(nfuid_C7_validation [' '] 32 96 (Config.mk ['0', '1'] 0 6) ['2']).1
      (by decide),
    (nfuid_C7_validation [' '] 32 96 (Config.mk ['0', '1'] 0 6) ['2']).2.2
      ⟨'2', by decide, by decide⟩⟩

/-- Claim C8: for every valid configuration the packed integer lies in
`[2^(6+timestampBits+randomBits), 2^(1+6+timestampBits+randomBits))`, so
its minimal binary representation has exactly `totalBits` digits with the
forced flag bit as the leading 1. -/
theorem nfuid_C8_packed_range (cfg : Config) (hv : ValidConfig cfg)
    (now : Nat) (bytes : List Nat) :
    2 ^ (6 + cfg.timestampBits + cfg.randomBits) ≤
        packedValue cfg now (jsGenerateRandomBits bytes cfg.randomBits) ∧
      packedValue cfg now (jsGenerateRandomBits bytes cfg.randomBits) <
        2 ^ totalBits cfg ∧
      (jsNatToString 2 (packedValue cfg now
        (jsGenerateRandomBits bytes cfg.randomBits))).length = totalBits cfg := by
  obtain ⟨hr2, hnd, htb63, hrb6⟩ := hv
  have htbrb : cfg.timestampBits ≤ cfg.randomBits := by omega
  have hrand := jsGenerateRandomBits_lt bytes cfg.randomBits
  have hge := packedValue_ge cfg now _ hrand htb63 htbrb
  have hlt := packedValue_lt cfg now _ hrand htb63 htbrb
  have he : totalBits cfg = (6 + cfg.timestampBits + cfg.randomBits) + 1 := by
    unfold totalBits
    omega
  have hlt' : packedValue cfg now (jsGenerateRandomBits bytes cfg.randomBits) <
      2 ^ ((6 + cfg.timestampBits + cfg.randomBits) + 1) := by
    have h7 : (6 + cfg.timestampBits + cfg.randomBits) + 1 =
        7 + cfg.timestampBits + cfg.randomBits := by omega
    rw [h7]
    exact hlt
  refine ⟨hge, ?_, ?_⟩
  · rw [he]
    exact hlt'
  · rw [he]
    exact jsNatToString_two_length _ _ hge hlt'

theorem nfuid_C8_packed_range_witness :
    2 ^ (6 + 8 + 16) ≤
        packedValue (Config.mk digits10 8 16) 1700000000
          (jsGenerateRandomBits [171, 205, 18] 16) ∧
      packedValue (Config.mk digits10 8 16) 1700000000
        (jsGenerateRandomBits [171, 205, 18] 16) <
        2 ^ totalBits (Config.mk digits10 8 16) ∧
      (jsNatToString 2 (packedValue (Config.mk digits10 8 16) 1700000000
        (jsGenerateRandomBits [171, 205, 18] 16))).length =
        totalBits (Config.mk digits10 8 16) :=
  nfuid_C8_packed_range (Config.mk digits10 8 16) (by decide) 1700000000
    [171, 205, 18]

/-- Claim C9: converting a number to the custom base and back is the
identity, for the JS pair (`fromBase ∘ toBase = id` for every value and
every `minLength`, so left-padding never changes the decoded value) and
for the PHP pair over the decimal-string substrate. -/
theorem nfuid_C9_base_roundtrip (alphabet : List Char)
    (hr : 2 ≤ alphabet.length) (hnd : alphabet.Nodup) (n minLength : Nat)
    (num : List Nat) (hnum : Canon num) :
    fromBase alphabet (toBase alphabet n minLength) = .ok n ∧
    (phpFromBase alphabet (phpToBase alphabet num minLength)).map val10 =
      .ok (val10 num) :=
  ⟨fromBase_toBase alphabet hr hnd n minLength,
    phpFromBase_toBase alphabet hr hnd num hnum minLength⟩

theorem nfuid_C9_base_roundtrip_witness :
    fromBase digits10 (toBase digits10 12345 3) = .ok 12345 ∧
    (phpFromBase digits10 (phpToBase digits10 [1, 2, 3, 4, 5] 3)).map val10 =
      .ok (val10 [1, 2, 3, 4, 5]) :=
  nfuid_C9_base_roundtrip digits10 (by decide) (by decide) 12345 3
    [1, 2, 3, 4, 5] (by decide)

/-- Claim C10: for every requested width `bits ≥ 1` and any raw random
bytes, the generated random value is below `2^bits` — in the JS
implementation (shift-and-OR fold then mask) and in the PHP port
(multiply-and-add fold over the decimal substrate then mask). -/
theorem nfuid_C10_random_masked (bytes : List Nat) (bits : Nat)
    (_h : 1 ≤ bits) :
    jsGenerateRandomBits bytes bits < 2 ^ bits ∧
    val10 (phpGenerateRandomBits bytes bits) < 2 ^ bits :=
  ⟨jsGenerateRandomBits_lt bytes bits, phpGenerateRandomBits_lt bytes bits⟩

theorem nfuid_C10_random_masked_witness :
    jsGenerateRandomBits [171, 205] 12 < 2 ^ 12 ∧
    val10 (phpGenerateRandomBits [171, 205] 12) < 2 ^ 12 :=
  nfuid_C10_random_masked [171, 205] 12 (by decide)

end NFUID
